import Mathlib

/-!
Verification of the rename-mapping decomposition and operation-planning
engine of `dir_edit.py` (repository `weisslj/dir-edit`).

The Python source is shallowly embedded: dictionaries become association
lists (`List (String × String)`) whose order mirrors Python insertion
order, the filesystem becomes an explicit state (`String → Option FsObj`
for execution, plus a read-only probe structure for planning), and
fallible code returns `Except`.  Functions keep their Python names where
Lean allows it.
-/

set_option maxHeartbeats 1000000

namespace DirEdit

/-- Python `pairwise` from `dir_edit.py`:
`s -> (s0, s1), (s1, s2), (s2, s3), ...` -/
def pairwise {α : Type} : List α → List (α × α)
  | [] => []
  | [_] => []
  | a :: b :: rest => (a, b) :: pairwise (b :: rest)

@[simp] theorem pairwise_nil {α : Type} : pairwise ([] : List α) = [] := rfl

@[simp] theorem pairwise_single {α : Type} (a : α) : pairwise [a] = [] := rfl

@[simp] theorem pairwise_cons_cons {α : Type} (a b : α) (l : List α) :
    pairwise (a :: b :: l) = (a, b) :: pairwise (b :: l) := rfl

/-- Lookup in an association list; models `dict.__getitem__` /
`dict.get` on a Python dict represented in insertion order. -/
def alookup (k : String) : List (String × String) → Option String
  | [] => none
  | (a, b) :: rest => if a = k then some b else alookup k rest

/-- Remove the (first) entry with the given key; models `dict.pop(k)`
on a dict (keys are unique in a dict, so "first" is exact). -/
def aerase (k : String) : List (String × String) → List (String × String)
  | [] => []
  | (a, b) :: rest => if a = k then rest else (a, b) :: aerase k rest

@[simp] theorem alookup_nil (k : String) : alookup k [] = none := rfl

@[simp] theorem alookup_cons (k a b : String) (l : List (String × String)) :
    alookup k ((a, b) :: l) = if a = k then some b else alookup k l := rfl

@[simp] theorem aerase_nil (k : String) : aerase k [] = [] := rfl

@[simp] theorem aerase_cons (k a b : String) (l : List (String × String)) :
    aerase k ((a, b) :: l) = if a = k then l else (a, b) :: aerase k l := rfl

theorem aerase_length_lt {k : String} {m : List (String × String)}
    (h : (alookup k m).isSome) : (aerase k m).length < m.length := by
  induction m with
  | nil => simp [alookup] at h
  | cons p rest ih =>
    obtain ⟨a, b⟩ := p
    by_cases hak : a = k
    · simp [hak]
    · simp only [alookup, hak, if_false] at h
      simpa [hak] using Nat.succ_lt_succ (ih h)

theorem aerase_sublist (k : String) (m : List (String × String)) :
    (aerase k m).Sublist m := by
  induction m with
  | nil => simp
  | cons p rest ih =>
    obtain ⟨a, b⟩ := p
    by_cases hak : a = k
    · simp [hak]
    · simpa [hak] using ih.cons₂ (a, b)

/-- Removing the looked-up entry is inverse to consing it back, up to
permutation. -/
theorem perm_cons_aerase {k v : String} {m : List (String × String)}
    (h : alookup k m = some v) : m.Perm ((k, v) :: aerase k m) := by
  induction m with
  | nil => simp [alookup] at h
  | cons p rest ih =>
    obtain ⟨a, b⟩ := p
    by_cases hak : a = k
    · simp only [alookup, hak, if_true] at h
      cases h
      simp [hak]
    · simp only [alookup, hak, if_false] at h
      have := (ih h).cons (a, b)
      simpa [hak] using this.trans (List.Perm.swap (k, v) (a, b) _)

theorem alookup_isSome_of_mem_keys {k : String} {m : List (String × String)}
    (h : k ∈ m.map Prod.fst) : (alookup k m).isSome := by
  induction m with
  | nil => simp at h
  | cons p rest ih =>
    obtain ⟨a, b⟩ := p
    by_cases hak : a = k
    · simp [alookup, hak]
    · simp only [List.map_cons, List.mem_cons] at h
      rcases h with h | h
      · exact absurd h.symm hak
      · simpa [alookup, hak] using ih h

theorem mem_keys_of_alookup_isSome {k : String} {m : List (String × String)}
    (h : (alookup k m).isSome) : k ∈ m.map Prod.fst := by
  induction m with
  | nil => simp [alookup] at h
  | cons p rest ih =>
    obtain ⟨a, b⟩ := p
    by_cases hak : a = k
    · simp [hak]
    · simp only [alookup, hak, if_false] at h
      simpa using Or.inr (ih h)

theorem mem_of_alookup_eq_some {k v : String} {m : List (String × String)}
    (h : alookup k m = some v) : (k, v) ∈ m := by
  induction m with
  | nil => simp [alookup] at h
  | cons p rest ih =>
    obtain ⟨a, b⟩ := p
    by_cases hak : a = k
    · simp only [alookup, hak, if_true] at h
      cases h
      simp [hak]
    · simp only [alookup, hak, if_false] at h
      exact List.mem_cons_of_mem _ (ih h)

theorem alookup_eq_none_of_not_mem_keys {k : String} {m : List (String × String)}
    (h : k ∉ m.map Prod.fst) : alookup k m = none := by
  cases halo : alookup k m with
  | none => rfl
  | some v => exact absurd (mem_keys_of_alookup_isSome (by simp [halo])) h

/-- Keys of the erased list: erasing key `k` only drops an entry with key
`k`. -/
theorem mem_keys_aerase {k x : String} {m : List (String × String)}
    (hx : x ∈ m.map Prod.fst) (hne : x ≠ k) : x ∈ (aerase k m).map Prod.fst := by
  induction m with
  | nil => simp at hx
  | cons p rest ih =>
    obtain ⟨a, b⟩ := p
    by_cases hak : a = k
    · simp only [List.map_cons, List.mem_cons] at hx
      rcases hx with hx | hx
      · exact absurd (hx.trans hak) hne
      · simpa [hak] using hx
    · simp only [List.map_cons, List.mem_cons] at hx
      rcases hx with hx | hx
      · simp [hak, hx]
      · simpa [hak] using Or.inr (ih hx)

theorem not_mem_keys_aerase_self {k : String} {m : List (String × String)}
    (hnd : (m.map Prod.fst).Nodup) : k ∉ (aerase k m).map Prod.fst := by
  induction m with
  | nil => simp
  | cons p rest ih =>
    obtain ⟨a, b⟩ := p
    simp only [List.map_cons, List.nodup_cons] at hnd
    by_cases hak : a = k
    · subst hak
      simpa using fun h => hnd.1 h
    · intro h
      simp only [hak, aerase_cons, if_false, List.map_cons, List.mem_cons] at h
      rcases h with h | h
      · exact hak h.symm
      · exact ih hnd.2 h

/-! ### `decompose_mapping` (dir_edit.py lines 192-213)

The Python function walks a dict destructively:

```
while mapping:
    try:
        src = srcs.pop()
        dst = mapping.pop(src)
    except KeyError:
        src, dst = mapping.popitem()
    path = [src, dst]
    while dst in mapping:
        dst = mapping.pop(dst)
        path.append(dst)
    if normcase(src) == normcase(path[-1]):
        cycles[src] = path
    else:
        paths[src] = path
```

`walkLoop` is the inner `while dst in mapping` loop, `decomposeLoop` the
outer loop.  The dict is an association list in insertion order;
`popitem` pops the last entry; the `srcs` set is a list (Python set
iteration order is arbitrary, the list is one deterministic choice).
The platform-dependent `normcase` is a parameter `nc`. -/

def walkLoop (m : List (String × String)) (dst : String) (path : List String) :
    List String × List (String × String) :=
  match halo : alookup dst m with
  | some d2 => walkLoop (aerase dst m) d2 (path ++ [d2])
  | none => (path, m)
termination_by m.length
decreasing_by exact aerase_length_lt (by simp [halo])

theorem walkLoop_snd_length_le (m : List (String × String)) (dst : String) (path : List String) :
    (walkLoop m dst path).2.length ≤ m.length := by
  rw [walkLoop]
  split
  case h_1 d2 halo =>
    exact le_trans (walkLoop_snd_length_le _ _ _)
      (Nat.le_of_lt (aerase_length_lt (by simp [halo])))
  case h_2 => exact Nat.le_refl _
termination_by m.length
decreasing_by exact aerase_length_lt (by simp [*])

/-- Classification at the end of one outer-loop iteration of
`decompose_mapping`: a walk whose last key is `normcase`-equal to its
first key goes into `cycles`, any other walk into `paths`. -/
def classifyWalk (nc : String → String) (s : String) (w : List String)
    (r : List (List String) × List (List String)) :
    List (List String) × List (List String) :=
  if nc s = nc (w.getLastD "") then (r.1, w :: r.2) else (w :: r.1, r.2)

def decomposeLoop (nc : String → String) (m : List (String × String)) (srcs : List String) :
    List (List String) × List (List String) :=
  if m = [] then ([], [])
  else
    match srcs with
    | s :: srest =>
      match halo : alookup s m with
      | some d =>
        -- `srcs.pop()` succeeded and `mapping.pop(src)` found the key
        classifyWalk nc s (walkLoop (aerase s m) d [s, d]).1
          (decomposeLoop nc (walkLoop (aerase s m) d [s, d]).2 srest)
      | none =>
        -- `mapping.pop(src)` raised KeyError: fall back to `popitem()`
        match m.getLast? with
        | some (s2, d) =>
          classifyWalk nc s2 (walkLoop m.dropLast d [s2, d]).1
            (decomposeLoop nc (walkLoop m.dropLast d [s2, d]).2 srest)
        | none => ([], [])
    | [] =>
      -- `srcs.pop()` raised KeyError: `popitem()`
      match m.getLast? with
      | some (s2, d) =>
        classifyWalk nc s2 (walkLoop m.dropLast d [s2, d]).1
          (decomposeLoop nc (walkLoop m.dropLast d [s2, d]).2 [])
      | none => ([], [])
termination_by m.length
decreasing_by
  · exact Nat.lt_of_le_of_lt (walkLoop_snd_length_le _ _ _)
      (aerase_length_lt (by simp [halo]))
  · refine Nat.lt_of_le_of_lt (walkLoop_snd_length_le _ _ _) ?_
    have hne : m ≠ [] := by assumption
    cases m with
    | nil => exact absurd rfl hne
    | cons a l => simp [List.dropLast]
  · refine Nat.lt_of_le_of_lt (walkLoop_snd_length_le _ _ _) ?_
    have hne : m ≠ [] := by assumption
    cases m with
    | nil => exact absurd rfl hne
    | cons a l => simp [List.dropLast]

/-! ### Generic list helpers for the decomposition proof -/

theorem getLastD_cons_cons {α : Type} (a b x : α) (l : List α) :
    (a :: b :: l).getLastD x = (b :: l).getLastD x := by
  induction l generalizing a b with
  | nil => rfl
  | cons c l ih => exact ih b c

theorem dropLast_cons_cons {α : Type} (a b : α) (l : List α) :
    (a :: b :: l).dropLast = a :: (b :: l).dropLast := rfl

theorem pairwise_map_snd {α : Type} (a : α) (l : List α) :
    (pairwise (a :: l)).map Prod.snd = l := by
  induction l generalizing a with
  | nil => rfl
  | cons b l ih => simpa using ih b

theorem pairwise_map_fst {α : Type} (a : α) (l : List α) :
    (pairwise (a :: l)).map Prod.fst = (a :: l).dropLast := by
  induction l generalizing a with
  | nil => rfl
  | cons b l ih => simpa [dropLast_cons_cons] using ih b

theorem mem_dropLast_or_getLastD {α : Type} {k a : α} {l : List α} (x : α)
    (h : k ∈ a :: l) : k ∈ (a :: l).dropLast ∨ k = (a :: l).getLastD x := by
  induction l generalizing a with
  | nil => simpa using h
  | cons b l ih =>
    rw [List.mem_cons] at h
    rcases h with h | h
    · subst h
      exact Or.inl (by simp [dropLast_cons_cons])
    · rcases ih h with h2 | h2
      · exact Or.inl (by simp [dropLast_cons_cons, h2])
      · exact Or.inr (by simpa [getLastD_cons_cons] using h2)

theorem perm_flatMap {α β : Type} (f : α → List β) {l₁ l₂ : List α}
    (h : l₁.Perm l₂) : (l₁.flatMap f).Perm (l₂.flatMap f) := by
  simpa [List.flatMap] using (h.map f).join

theorem eq_dropLast_append_of_getLast?_eq_some {α : Type} {l : List α} {a : α}
    (h : l.getLast? = some a) : l = l.dropLast ++ [a] := by
  induction l with
  | nil => simp at h
  | cons b l ih =>
    cases l with
    | nil => simp_all
    | cons c l =>
      rw [List.getLast?_cons_cons] at h
      rw [dropLast_cons_cons, List.cons_append]
      exact congrArg (b :: ·) (ih h)

/-! ### The inner walk loop: full specification -/

/-- Specification of `walkLoop`: the walk extends the accumulated path by
`ext`, consumes exactly the edges `pairwise (dst :: ext)` from the
mapping, stops at a key without outgoing edge, and erases exactly the
keys `(dst :: ext).dropLast`. -/
theorem walkLoop_spec (m : List (String × String)) (dst : String) (path : List String)
    (hk : (m.map Prod.fst).Nodup) :
    ∃ ext,
      (walkLoop m dst path).1 = path ++ ext ∧
      m.Perm (pairwise (dst :: ext) ++ (walkLoop m dst path).2) ∧
      (walkLoop m dst path).2.Sublist m ∧
      alookup ((dst :: ext).getLastD "") (walkLoop m dst path).2 = none ∧
      (∀ k ∈ (dst :: ext).dropLast, k ∉ (walkLoop m dst path).2.map Prod.fst) ∧
      (∀ x ∈ ext, x ∈ m.map Prod.snd) ∧
      (∀ k ∈ m.map Prod.fst, k ∉ (dst :: ext).dropLast →
        k ∈ (walkLoop m dst path).2.map Prod.fst) := by
  rw [walkLoop]
  split
  case h_1 d2 halo =>
    have hk0 : ((aerase dst m).map Prod.fst).Nodup :=
      hk.sublist ((aerase_sublist dst m).map Prod.fst)
    obtain ⟨ext2, i1, i2, i3, i4, i5, i6, i7⟩ :=
      walkLoop_spec (aerase dst m) d2 (path ++ [d2]) hk0
    refine ⟨d2 :: ext2, ?_, ?_, ?_, ?_, ?_, ?_, ?_⟩
    · rw [i1, List.append_assoc]
      rfl
    · refine (perm_cons_aerase halo).trans ?_
      refine ((i2.cons (dst, d2)).trans ?_)
      simp [pairwise_cons_cons]
    · exact i3.trans (aerase_sublist dst m)
    · rw [getLastD_cons_cons]
      exact i4
    · intro k hkm
      rw [dropLast_cons_cons, List.mem_cons] at hkm
      rcases hkm with h | h
      · subst h
        intro hmem
        exact not_mem_keys_aerase_self hk
          (((i3.map Prod.fst).subset) hmem)
      · exact i5 k h
    · intro x hx
      rcases List.mem_cons.mp hx with h | h
      · subst h
        exact List.mem_map_of_mem Prod.snd (mem_of_alookup_eq_some halo)
      · exact ((aerase_sublist dst m).map Prod.snd).subset (i6 x h)
    · intro k hkm hnd
      rw [dropLast_cons_cons, List.mem_cons] at hnd
      push_neg at hnd
      exact i7 k (mem_keys_aerase hkm hnd.1) hnd.2
  case h_2 halo =>
    refine ⟨[], by simp, by simp, List.Sublist.refl m, ?_, by simp, by simp, ?_⟩
    · simpa using halo
    · intro k hkm _
      exact hkm
termination_by m.length
decreasing_by exact aerase_length_lt (by simp [*])

/-- Specification of `walkLoop` when the remaining mapping is a
permutation of its own key set with one edge `(s, dst)` already popped:
the walk necessarily closes the loop, returning to `s`. -/
theorem walkLoop_closes (m : List (String × String)) (dst s : String) (path : List String)
    (hk : (m.map Prod.fst).Nodup) (hv : (m.map Prod.snd).Nodup)
    (hI : (s :: m.map Prod.fst).Perm (dst :: m.map Prod.snd))
    (hs : s ∉ m.map Prod.fst) :
    ∃ ext, (walkLoop m dst path).1 = path ++ ext ∧
      (dst :: ext).getLastD "" = s ∧
      ((walkLoop m dst path).2.map Prod.fst).Perm ((walkLoop m dst path).2.map Prod.snd) := by
  rw [walkLoop]
  split
  case h_1 d2 halo =>
    have hpm : m.Perm ((dst, d2) :: aerase dst m) := perm_cons_aerase halo
    have hkp : (m.map Prod.fst).Perm (dst :: (aerase dst m).map Prod.fst) := by
      simpa using hpm.map Prod.fst
    have hvp : (m.map Prod.snd).Perm (d2 :: (aerase dst m).map Prod.snd) := by
      simpa using hpm.map Prod.snd
    have hk0 : ((aerase dst m).map Prod.fst).Nodup :=
      hk.sublist ((aerase_sublist dst m).map Prod.fst)
    have hv0 : ((aerase dst m).map Prod.snd).Nodup :=
      hv.sublist ((aerase_sublist dst m).map Prod.snd)
    have hI0 : (s :: (aerase dst m).map Prod.fst).Perm
        (d2 :: (aerase dst m).map Prod.snd) := by
      have h1 : (s :: m.map Prod.fst).Perm (s :: dst :: (aerase dst m).map Prod.fst) :=
        hkp.cons s
      have h2 : (dst :: m.map Prod.snd).Perm (dst :: d2 :: (aerase dst m).map Prod.snd) :=
        hvp.cons dst
      have h3 : (dst :: s :: (aerase dst m).map Prod.fst).Perm
          (dst :: d2 :: (aerase dst m).map Prod.snd) :=
        ((List.Perm.swap dst s _).symm.trans (h1.symm.trans (hI.trans h2)))
      exact h3.cons_inv
    have hs0 : s ∉ (aerase dst m).map Prod.fst := fun h =>
      hs (((aerase_sublist dst m).map Prod.fst).subset h)
    obtain ⟨ext2, i1, i2, i3⟩ :=
      walkLoop_closes (aerase dst m) d2 s (path ++ [d2]) hk0 hv0 hI0 hs0
    refine ⟨d2 :: ext2, ?_, ?_, i3⟩
    · rw [i1, List.append_assoc]
      rfl
    · rw [getLastD_cons_cons]
      exact i2
  case h_2 halo =>
    have hdst : dst ∉ m.map Prod.fst := fun h => by
      have h2 := alookup_isSome_of_mem_keys h
      rw [halo] at h2
      simp at h2
    have hds : dst = s := by
      have : dst ∈ s :: m.map Prod.fst := hI.symm.subset (by simp)
      rcases List.mem_cons.mp this with h | h
      · exact h
      · exact absurd h hdst
    subst hds
    refine ⟨[], (List.append_nil path).symm, rfl, ?_⟩
    exact (hI.cons_inv)
termination_by m.length
decreasing_by exact aerase_length_lt (by simp [*])

/-- Invariant specification of the outer loop of `decompose_mapping`.
Hypotheses: the association list has distinct keys (it is a dict) and
distinct values (injectivity), `srcs` is duplicate-free, contains only
keys, no values, and contains every key that is not a value.
Conclusions: the consecutive pairs of the produced walks are a
permutation of the mapping (each edge covered exactly once); every walk
in `cycles` closes up to `nc`; every walk in `paths` does not close and
starts at a member of `srcs`. -/
theorem decomposeLoop_spec (nc : String → String) (m : List (String × String))
    (srcs : List String)
    (hk : (m.map Prod.fst).Nodup) (hv : (m.map Prod.snd).Nodup)
    (hsnd : srcs.Nodup)
    (hsub : ∀ x ∈ srcs, x ∈ m.map Prod.fst)
    (hdisj : ∀ x ∈ srcs, x ∉ m.map Prod.snd)
    (hcov : ∀ k ∈ m.map Prod.fst, k ∉ m.map Prod.snd → k ∈ srcs) :
    (((decomposeLoop nc m srcs).1 ++ (decomposeLoop nc m srcs).2).flatMap pairwise).Perm m ∧
    (∀ w ∈ (decomposeLoop nc m srcs).2, nc (w.getLastD "") = nc (w.headD "")) ∧
    (∀ w ∈ (decomposeLoop nc m srcs).1,
      nc (w.getLastD "") ≠ nc (w.headD "") ∧ w.headD "" ∈ srcs) := by
  by_cases hm : m = []
  · subst hm
    rw [decomposeLoop.eq_def]
    simp
  · rcases hsrcs : srcs with _ | ⟨s, srest⟩
    · -- popitem branch
      rcases hgl : m.getLast? with _ | ⟨s2, d⟩
      · exact absurd (List.getLast?_eq_none_iff.mp hgl) hm
      rw [decomposeLoop.eq_def, if_neg hm]
      dsimp only
      rw [hgl]
      dsimp only
      have hmd : m = m.dropLast ++ [(s2, d)] := eq_dropLast_append_of_getLast?_eq_some hgl
      have hkeysPerm : (m.map Prod.fst).Perm (s2 :: m.dropLast.map Prod.fst) := by
        conv_lhs => rw [hmd]
        simpa using List.perm_middle
      have hvalsPerm : (m.map Prod.snd).Perm (d :: m.dropLast.map Prod.snd) := by
        conv_lhs => rw [hmd]
        simpa using List.perm_middle
      have hkv : (m.map Prod.fst).Perm (m.map Prod.snd) := by
        refine (List.subperm_of_subset hk ?_).perm_of_length_le (by simp)
        intro k hkk
        by_contra hknv
        rw [hsrcs] at hcov
        exact absurd (hcov k hkk hknv) (List.not_mem_nil k)
      have hI : (s2 :: m.dropLast.map Prod.fst).Perm (d :: m.dropLast.map Prod.snd) :=
        hkeysPerm.symm.trans (hkv.trans hvalsPerm)
      have hs2cons : (s2 :: m.dropLast.map Prod.fst).Nodup := hkeysPerm.nodup_iff.mp hk
      have hs2 : s2 ∉ m.dropLast.map Prod.fst := (List.nodup_cons.mp hs2cons).1
      have hk1 : (m.dropLast.map Prod.fst).Nodup := (List.nodup_cons.mp hs2cons).2
      have hv1 : (m.dropLast.map Prod.snd).Nodup :=
        (List.nodup_cons.mp (hvalsPerm.nodup_iff.mp hv)).2
      obtain ⟨ext0, c1, c2, c3⟩ := walkLoop_closes m.dropLast d s2 [s2, d] hk1 hv1 hI hs2
      obtain ⟨ext, e1, e2, e3, e4, e5, e6, e7⟩ := walkLoop_spec m.dropLast d [s2, d] hk1
      have hexteq : ext0 = ext := List.append_cancel_left (c1.symm.trans e1)
      subst hexteq
      have hw1 : (walkLoop m.dropLast d [s2, d]).1 = s2 :: d :: ext0 := e1
      have hlast : ((walkLoop m.dropLast d [s2, d]).1).getLastD "" = s2 := by
        rw [hw1, getLastD_cons_cons]
        exact c2
      have hcond : nc s2 = nc (((walkLoop m.dropLast d [s2, d]).1).getLastD "") := by
        rw [hlast]
      simp only [classifyWalk]
      rw [if_pos hcond]
      -- invariants for the recursive call on the remaining mapping
      have hw2sub : (walkLoop m.dropLast d [s2, d]).2.Sublist m :=
        e3.trans (List.dropLast_sublist m)
      have hk2 : ((walkLoop m.dropLast d [s2, d]).2.map Prod.fst).Nodup :=
        hk.sublist (hw2sub.map Prod.fst)
      have hv2 : ((walkLoop m.dropLast d [s2, d]).2.map Prod.snd).Nodup :=
        hv.sublist (hw2sub.map Prod.snd)
      have hcov2 : ∀ k ∈ (walkLoop m.dropLast d [s2, d]).2.map Prod.fst,
          k ∉ (walkLoop m.dropLast d [s2, d]).2.map Prod.snd → k ∈ ([] : List String) := by
        intro k hkk hknv
        exact absurd (c3.subset hkk) hknv
      have hlt : (walkLoop m.dropLast d [s2, d]).2.length < m.length := by
        refine Nat.lt_of_le_of_lt (walkLoop_snd_length_le _ _ _) ?_
        cases m with
        | nil => exact absurd rfl hm
        | cons a l => simp [List.dropLast]
      obtain ⟨A, B, C⟩ := decomposeLoop_spec nc (walkLoop m.dropLast d [s2, d]).2 []
        hk2 hv2 (by simp) (by simp) (by simp) hcov2
      refine ⟨?_, ?_, ?_⟩
      · -- edge coverage
        refine (perm_flatMap pairwise List.perm_middle).trans ?_
        rw [List.flatMap_cons]
        have hpw : pairwise ((walkLoop m.dropLast d [s2, d]).1) =
            (s2, d) :: pairwise (d :: ext0) := by
          rw [hw1, pairwise_cons_cons]
        rw [hpw]
        refine ((A.append_left _).trans ?_)
        have step1 : ((s2, d) :: pairwise (d :: ext0) ++ (walkLoop m.dropLast d [s2, d]).2).Perm
            ((s2, d) :: m.dropLast) := (e2.symm.cons (s2, d))
        refine step1.trans ?_
        conv_rhs => rw [hmd]
        simpa using (@List.perm_middle _ (s2, d) m.dropLast []).symm
      · intro w hw
        rcases List.mem_cons.mp hw with h | h
        · subst h
          rw [hlast, hw1]
          rfl
        · exact B w h
      · intro w hw
        obtain ⟨hne, hmem⟩ := C w hw
        exact ⟨hne, by simp at hmem⟩
    · -- a source with no inbound edge is popped
      have hsmem : s ∈ m.map Prod.fst := hsub s (by simp [hsrcs])
      rcases halo : alookup s m with _ | d
      · have h2 := alookup_isSome_of_mem_keys hsmem
        rw [halo] at h2
        simp at h2
      rw [decomposeLoop.eq_def, if_neg hm]
      dsimp only
      rw [halo]
      dsimp only
      have hk0 : ((aerase s m).map Prod.fst).Nodup :=
        hk.sublist ((aerase_sublist s m).map Prod.fst)
      obtain ⟨ext, e1, e2, e3, e4, e5, e6, e7⟩ := walkLoop_spec (aerase s m) d [s, d] hk0
      have hmPerm : m.Perm ((s, d) :: aerase s m) := perm_cons_aerase halo
      have hw1 : (walkLoop (aerase s m) d [s, d]).1 = s :: d :: ext := e1
      have hdval : d ∈ m.map Prod.snd :=
        List.mem_map_of_mem Prod.snd (mem_of_alookup_eq_some halo)
      have hexts : ∀ x ∈ d :: ext, x ∈ m.map Prod.snd := by
        intro x hx
        rcases List.mem_cons.mp hx with h | h
        · exact h ▸ hdval
        · exact ((aerase_sublist s m).map Prod.snd).subset (e6 x h)
      have hw2sub : (walkLoop (aerase s m) d [s, d]).2.Sublist m :=
        e3.trans (aerase_sublist s m)
      have hsnodup : s ∉ srest ∧ srest.Nodup := by
        rw [hsrcs] at hsnd
        exact List.nodup_cons.mp hsnd
      -- invariants for the recursive call
      have hk2 : ((walkLoop (aerase s m) d [s, d]).2.map Prod.fst).Nodup :=
        hk.sublist (hw2sub.map Prod.fst)
      have hv2 : ((walkLoop (aerase s m) d [s, d]).2.map Prod.snd).Nodup :=
        hv.sublist (hw2sub.map Prod.snd)
      have hsub2 : ∀ x ∈ srest, x ∈ (walkLoop (aerase s m) d [s, d]).2.map Prod.fst := by
        intro x hx
        have hxk : x ∈ m.map Prod.fst := hsub x (by simp [hsrcs, hx])
        have hxnv : x ∉ m.map Prod.snd := hdisj x (by simp [hsrcs, hx])
        have hxs : x ≠ s := fun h => hsnodup.1 (h ▸ hx)
        refine e7 x (mem_keys_aerase hxk hxs) ?_
        intro hxdl
        exact hxnv (hexts x (List.dropLast_subset _ hxdl))
      have hdisj2 : ∀ x ∈ srest, x ∉ (walkLoop (aerase s m) d [s, d]).2.map Prod.snd := by
        intro x hx hmem
        exact hdisj x (by simp [hsrcs, hx]) ((hw2sub.map Prod.snd).subset hmem)
      have hcov2 : ∀ k ∈ (walkLoop (aerase s m) d [s, d]).2.map Prod.fst,
          k ∉ (walkLoop (aerase s m) d [s, d]).2.map Prod.snd → k ∈ srest := by
        intro k hkk hknv
        have hkm : k ∈ m.map Prod.fst := (hw2sub.map Prod.fst).subset hkk
        by_cases hkv : k ∈ m.map Prod.snd
        · exfalso
          have hv1p : (m.map Prod.snd).Perm (d :: (aerase s m).map Prod.snd) := by
            simpa using hmPerm.map Prod.snd
          have hv2p : ((aerase s m).map Prod.snd).Perm
              (ext ++ (walkLoop (aerase s m) d [s, d]).2.map Prod.snd) := by
            have h3 := e2.map Prod.snd
            simpa [pairwise_map_snd] using h3
          have hkin : k ∈ d :: (ext ++ (walkLoop (aerase s m) d [s, d]).2.map Prod.snd) :=
            ((hv1p.trans (hv2p.cons d)).subset) hkv
          have hkde : k ∈ d :: ext := by
            rcases List.mem_cons.mp hkin with h | h
            · exact h ▸ List.mem_cons_self d ext
            · rcases List.mem_append.mp h with h2 | h2
              · exact List.mem_cons_of_mem d h2
              · exact absurd h2 hknv
          rcases mem_dropLast_or_getLastD "" hkde with h | h
          · exact e5 k h hkk
          · have h4 := alookup_isSome_of_mem_keys hkk
            rw [← h] at e4
            rw [e4] at h4
            simp at h4
        · have hks : k ∈ s :: srest := by
            have := hcov k hkm hkv
            rwa [hsrcs] at this
          rcases List.mem_cons.mp hks with h | h
          · exfalso
            subst h
            exact not_mem_keys_aerase_self hk (((e3.map Prod.fst).subset) hkk)
          · exact h
      have hlt : (walkLoop (aerase s m) d [s, d]).2.length < m.length :=
        Nat.lt_of_le_of_lt (walkLoop_snd_length_le _ _ _)
          (aerase_length_lt (by simp [halo]))
      obtain ⟨A, B, C⟩ := decomposeLoop_spec nc (walkLoop (aerase s m) d [s, d]).2 srest
        hk2 hv2 hsnodup.2 hsub2 hdisj2 hcov2
      have hpw : pairwise ((walkLoop (aerase s m) d [s, d]).1) =
          (s, d) :: pairwise (d :: ext) := by
        rw [hw1, pairwise_cons_cons]
      have hcover : ∀ r1 r2 : List (List String),
          ((r1 ++ r2).flatMap pairwise).Perm ((walkLoop (aerase s m) d [s, d]).2) →
          (((walkLoop (aerase s m) d [s, d]).1 :: (r1 ++ r2)).flatMap pairwise).Perm m := by
        intro r1 r2 hA
        rw [List.flatMap_cons, hpw]
        refine ((hA.append_left _).trans ?_).trans hmPerm.symm
        exact (e2.symm.cons (s, d))
      have hhead : ((walkLoop (aerase s m) d [s, d]).1).headD "" = s := by
        rw [hw1]
        rfl
      simp only [classifyWalk]
      by_cases hcase : nc s = nc (((walkLoop (aerase s m) d [s, d]).1).getLastD "")
      · rw [if_pos hcase]
        refine ⟨?_, ?_, ?_⟩
        · refine (perm_flatMap pairwise List.perm_middle).trans ?_
          exact hcover _ _ A
        · intro w hw
          rcases List.mem_cons.mp hw with h | h
          · subst h
            rw [hhead]
            exact hcase.symm
          · exact B w h
        · intro w hw
          obtain ⟨hne, hmem⟩ := C w hw
          exact ⟨hne, List.mem_cons_of_mem s hmem⟩
      · rw [if_neg hcase]
        refine ⟨?_, ?_, ?_⟩
        · rw [List.cons_append]
          exact hcover _ _ A
        · exact B
        · intro w hw
          rcases List.mem_cons.mp hw with h | h
          · subst h
            refine ⟨fun hEq => hcase ?_, ?_⟩
            · rw [hhead] at hEq
              exact hEq.symm
            · rw [hhead]
              exact List.mem_cons_self s srest
          · obtain ⟨hne, hmem⟩ := C w h
            exact ⟨hne, List.mem_cons_of_mem s hmem⟩
termination_by m.length
decreasing_by
  · exact hlt
  · exact hlt

/-- Model of `decompose_mapping` (dir_edit.py line 192): decompose an injective
mapping into chain walks and cycle walks.  Returns
`(paths.values(), cycles.values())` in insertion order. -/
def decompose_mapping (nc : String → String) (m : List (String × String)) :
    List (List String) × List (List String) :=
  decomposeLoop nc m
    ((m.map Prod.fst).filter (fun k => !(m.map Prod.snd).contains k))

/-- C1: For every finite injective mapping with no self-loops,
`decompose_mapping` returns chains and cycles whose edges together cover
every `(src, dst)` pair of the input mapping exactly once (the flattened
consecutive pairs of all returned walks are a permutation of the
mapping), and a walk is classified as a cycle iff its last key is
case-fold-equal (`nc`) to its first key; otherwise it is a chain whose
start key is not the destination of any edge. -/
theorem decompose_mapping_spec (nc : String → String) (m : List (String × String))
    (hk : (m.map Prod.fst).Nodup) (hv : (m.map Prod.snd).Nodup)
    (hself : ∀ p ∈ m, p.1 ≠ p.2) :
    ((((decompose_mapping nc m).1 ++ (decompose_mapping nc m).2).flatMap pairwise).Perm m) ∧
    (∀ w ∈ (decompose_mapping nc m).2, nc (w.getLastD "") = nc (w.headD "")) ∧
    (∀ w ∈ (decompose_mapping nc m).1,
      nc (w.getLastD "") ≠ nc (w.headD "") ∧ w.headD "" ∉ m.map Prod.snd) := by
  have hsnd : ((m.map Prod.fst).filter (fun k => !(m.map Prod.snd).contains k)).Nodup :=
    hk.filter _
  have hsub : ∀ x ∈ (m.map Prod.fst).filter (fun k => !(m.map Prod.snd).contains k),
      x ∈ m.map Prod.fst := fun x hx => (List.mem_filter.mp hx).1
  have hdisj : ∀ x ∈ (m.map Prod.fst).filter (fun k => !(m.map Prod.snd).contains k),
      x ∉ m.map Prod.snd := by
    intro x hx
    have h2 := (List.mem_filter.mp hx).2
    simpa using h2
  have hcov : ∀ k ∈ m.map Prod.fst, k ∉ m.map Prod.snd →
      k ∈ (m.map Prod.fst).filter (fun k => !(m.map Prod.snd).contains k) := by
    intro k hkk hknv
    refine List.mem_filter.mpr ⟨hkk, ?_⟩
    simpa using hknv
  obtain ⟨A, B, C⟩ := decomposeLoop_spec nc m
    ((m.map Prod.fst).filter (fun k => !(m.map Prod.snd).contains k))
    hk hv hsnd hsub hdisj hcov
  exact ⟨A, B, fun w hw => ⟨(C w hw).1, hdisj _ (C w hw).2⟩⟩

/-- Witness for `decompose_mapping_spec` at the two-element swap mapping
`{a: b, b: a}` with identity `normcase`. -/
theorem decompose_mapping_spec_witness :
    ((((decompose_mapping (fun s => s) [("a", "b"), ("b", "a")]).1 ++
        (decompose_mapping (fun s => s) [("a", "b"), ("b", "a")]).2).flatMap pairwise).Perm
      [("a", "b"), ("b", "a")]) ∧
    (∀ w ∈ (decompose_mapping (fun s => s) [("a", "b"), ("b", "a")]).2,
      (fun s => s) (w.getLastD "") = (fun s => s) (w.headD "")) ∧
    (∀ w ∈ (decompose_mapping (fun s => s) [("a", "b"), ("b", "a")]).1,
      (fun s => s) (w.getLastD "") ≠ (fun s => s) (w.headD "") ∧
      w.headD "" ∉ [("a", "b"), ("b", "a")].map Prod.snd) :=
  decompose_mapping_spec (fun s => s) [("a", "b"), ("b", "a")]
    (by decide) (by decide) (by decide)

/-! ### Path-string helpers (POSIX `os.path` on normalized relative paths)

All paths that reach the planner went through `make_relpath`, i.e. are
`os.path.normpath` outputs: relative, `/`-separated, no empty or `.`
components, no trailing separator. -/

/-- Model of `os.sep` on POSIX. -/
def pySep : String := "/"

/-- Model of `dst.startswith(src + os.sep)` (dir_edit.py line 348/357): the
destination lies strictly inside the source directory.  Python
`str.startswith` is character-sequence prefix. -/
def startsWithDir (src dst : String) : Bool := (src ++ pySep).data.isPrefixOf dst.data

/-- Model of `str.split(os.sep)`: split into components at `/` (kernel-computable
equivalent of `String.splitOn`). -/
def splitCompsAux : List Char → List Char → List String
  | [], acc => [String.mk acc.reverse]
  | c :: rest, acc =>
    if c = Char.ofNat 47 then String.mk acc.reverse :: splitCompsAux rest []
    else splitCompsAux rest (c :: acc)

def splitComps (p : String) : List String := splitCompsAux p.data []

/-- Join components with `/` (kernel-computable equivalent of
`String.intercalate`). -/
def joinComps : List String → String
  | [] => ""
  | [c] => c
  | c :: rest => c ++ pySep ++ joinComps rest

/-- Model of `os.path.basename` for normalized relative paths: the part after the
last separator. -/
def basename (p : String) : String := (splitComps p).getLastD ""

/-- Model of `os.path.dirname` for normalized relative paths: the part before the
last separator (empty if there is none). -/
def dirname (p : String) : String := joinComps ((splitComps p).dropLast)

/-- Model of `os.path.join` for the call sites in `generate_operations`: the left
operand is a non-empty directory name without trailing separator, the
right operand a relative basename. -/
def pyJoin (a b : String) : String := if a = "" then b else a ++ pySep ++ b

/-- Model of `dirnames` (dir_edit.py line 322): yield all `os.path.dirname`s, the
deepest ancestor first. -/
def dirnames (p : String) : List String :=
  ((List.range ((splitComps p).length - 1)).reverse).map
    (fun k => joinComps ((splitComps p).take (k + 1)))

/-! ### Operations and the planner (dir_edit.py lines 48-112, 317-375)

A Python operation is a pair `((fun, cmd), args)`; the distinct
`(fun, cmd)` combinations become constructors.  `cd` carries `fun =
None`.  `rename` renders as `mv -n`, `makedirs` as `mkdir -p`. -/

inductive Op where
  | cd (path : String)
  | rename (src dst : String)
  | makedirs (path : String)
  | mkdir (path : String)
  | rmdir (path : String)
  | remove (path : String)
  | rmtree (path : String)
deriving DecidableEq, Repr

/-- Read-only filesystem probes used at planning time by
`path_remove_ops` (`os.path.islink`, `os.path.isdir`, `os.listdir`). -/
structure FSProbe where
  islink : String → Bool
  isdir : String → Bool
  listdirNonempty : String → Bool

/-- Model of `path_remove_ops` (dir_edit.py line 88): removal is `rm` for
non-directories and symlinks, `rm -r` for non-empty directories when
recursive removal is enabled (otherwise a warning and no operation), and
`rmdir` for empty directories. -/
def path_remove_ops (fs : FSProbe) (recursive : Bool) (path : String) : List Op :=
  if fs.islink path || !fs.isdir path then [Op.remove path]
  else if fs.listdirNonempty path then
    if recursive then [Op.rmtree path] else []
  else [Op.rmdir path]

/-- Model of `create_tmpdir` (dir_edit.py line 329): lazily create the temporary
directory.  `tmpN` is the (random, fixed per invocation) name `tmpname()`
would produce; the empty string means "not created yet", exactly as in
the Python code.  Returns the operations to append and the new `tmpdir`
state. -/
def create_tmpdir (tmpN tmpdir : String) : List Op × String :=
  if tmpdir = "" then ([Op.mkdir tmpN], tmpN) else ([], tmpdir)

/-- Model of `remove_tmpdir` (dir_edit.py line 336). -/
def remove_tmpdir (tmpdir : String) : List Op :=
  if tmpdir = "" then [] else [Op.rmdir tmpdir]

/-- Model of the `src_dirs` accumulation (dir_edit.py lines 346-350): ancestors of the
sources of all chain edges whose destination is not inside its source.
Python keeps a set; this list is membership-equivalent. -/
def srcDirs (paths : List (List String)) : List String :=
  paths.flatMap (fun p => (pairwise p.reverse).flatMap
    (fun q => if startsWithDir q.2 q.1 then [] else dirnames q.2))

/-- Model of the `dst_dirs` accumulation (dir_edit.py lines 346-350). -/
def dstDirs (paths : List (List String)) : List String :=
  paths.flatMap (fun p => (pairwise p.reverse).flatMap
    (fun q => if startsWithDir q.2 q.1 then [] else dirnames q.1))

/-- Set difference keeping first occurrences (models Python set
difference; iteration order of a Python set is arbitrary, this is one
deterministic choice). -/
def listDiff (a b : List String) : List String :=
  (a.filter (fun x => !b.contains x)).dedup

/-- Model of `sorted(..., key=len)` (ascending, stable). -/
def sortByLenAsc (l : List String) : List String :=
  l.mergeSort (fun a b => a.length ≤ b.length)

/-- Model of `sorted(..., key=len, reverse=True)` (descending, stable). -/
def sortByLenDesc (l : List String) : List String :=
  l.mergeSort (fun a b => b.length ≤ a.length)

/-- One iteration of the chain loop body (dir_edit.py lines 356-364),
processing one `(dst, src)` pair of `pairwise(reversed(path))` with the
accumulated operation list and `tmpdir` state. -/
def chainPairOps (tmpN : String) (acc : List Op × String) (q : String × String) :
    List Op × String :=
  if startsWithDir q.2 q.1 then
    -- dst starts with src + os.sep: stage through the temporary directory
    ((acc.1 ++ (create_tmpdir tmpN acc.2).1 ++
      [Op.rename q.2 (pyJoin (create_tmpdir tmpN acc.2).2 (basename q.2)),
       Op.makedirs (dirname q.1),
       Op.rename (pyJoin (create_tmpdir tmpN acc.2).2 (basename q.2)) q.1]),
     (create_tmpdir tmpN acc.2).2)
  else (acc.1 ++ [Op.rename q.2 q.1], acc.2)

/-- The chain loop (dir_edit.py lines 355-364). -/
def chainsOps (tmpN : String) (paths : List (List String)) (acc : List Op × String) :
    List Op × String :=
  paths.foldl (fun a p => (pairwise p.reverse).foldl (chainPairOps tmpN) a) acc

/-- One iteration of the cycle loop body (dir_edit.py lines 367-373):
evacuate `cycle[0]` to the temporary directory, substitute it, then
rename tail-to-head. -/
def cycleOps (tmpN : String) (acc : List Op × String) (cycle : List String) :
    List Op × String :=
  match cycle with
  | [] => acc  -- unreachable from decompose_mapping: every walk has length >= 2
  | c0 :: rest =>
    ((acc.1 ++ (create_tmpdir tmpN acc.2).1 ++
      [Op.rename c0 (pyJoin (create_tmpdir tmpN acc.2).2 (basename c0))] ++
      (pairwise ((pyJoin (create_tmpdir tmpN acc.2).2 (basename c0) :: rest).reverse)).map
        (fun q => Op.rename q.2 q.1)),
     (create_tmpdir tmpN acc.2).2)

/-- Model of `generate_operations` (dir_edit.py lines 340-375).  `tmpN` stands for
the one random name `tmpname()` produces in this invocation, `cwd` for
`os.path.realpath(os.curdir)`. -/
def generate_operations (fs : FSProbe) (tmpN cwd : String)
    (paths cycles : List (List String)) (removals : List String)
    (removeRecursive : Bool) : List Op :=
  let sd := srcDirs paths
  let dd := dstDirs paths
  let ops1 := [Op.cd cwd] ++ removals.flatMap (path_remove_ops fs removeRecursive) ++
    (sortByLenAsc (listDiff dd sd)).map Op.makedirs
  let c := chainsOps tmpN paths (ops1, "")
  let c2 := cycles.foldl (cycleOps tmpN)
    (c.1 ++ (sortByLenDesc (listDiff sd dd)).map Op.rmdir, c.2)
  c2.1 ++ remove_tmpdir c2.2

/-! ### Lemmas about `pairwise` and reversal -/

theorem getLastD_cons_default_irrel {α : Type} (a x y : α) (l : List α) :
    (a :: l).getLastD x = (a :: l).getLastD y := by
  induction l generalizing a with
  | nil => rfl
  | cons b l ih =>
    rw [getLastD_cons_cons, getLastD_cons_cons]
    exact ih b

theorem pairwise_snoc {α : Type} (x a : α) (xs : List α) :
    pairwise ((x :: xs) ++ [a]) = pairwise (x :: xs) ++ [((x :: xs).getLastD x, a)] := by
  induction xs generalizing x with
  | nil => rfl
  | cons y ys ih =>
    rw [show ((x :: y :: ys) ++ [a] : List α) = x :: y :: (ys ++ [a]) from rfl]
    rw [pairwise_cons_cons]
    rw [show (y :: (ys ++ [a]) : List α) = (y :: ys) ++ [a] from rfl, ih y]
    rw [getLastD_cons_cons, getLastD_cons_default_irrel y x y ys]
    rfl

theorem pairwise_reverse {α : Type} (l : List α) :
    pairwise l.reverse = ((pairwise l).reverse).map Prod.swap := by
  induction l with
  | nil => rfl
  | cons a l ih =>
    cases l with
    | nil => rfl
    | cons b rest =>
      have hrev : (b :: rest).reverse ≠ [] := by simp
      rcases hx : (b :: rest).reverse with _ | ⟨x, xs⟩
      · exact absurd hx hrev
      have hstep : (a :: b :: rest).reverse = (x :: xs) ++ [a] := by
        rw [List.reverse_cons, hx]
      have hlastrev : (x :: xs).getLastD x = b := by
        have h1 : (x :: xs).getLast? = some b := by
          rw [← hx, List.getLast?_reverse]
          rfl
        rw [List.getLastD_eq_getLast?, h1]
        rfl
      rw [hstep, pairwise_snoc, hlastrev, ← hx, ih, pairwise_cons_cons]
      rw [List.reverse_cons, List.map_append]
      rfl

theorem mem_pairwise_reverse {α : Type} {l : List α} {q : α × α} :
    q ∈ pairwise l.reverse ↔ (q.2, q.1) ∈ pairwise l := by
  rw [pairwise_reverse]
  constructor
  · intro h
    obtain ⟨q0, hq0, hswap⟩ := List.mem_map.mp h
    have h1 : q0 ∈ pairwise l := List.mem_reverse.mp hq0
    obtain ⟨a, b⟩ := q0
    cases hswap
    simpa using h1
  · intro h
    refine List.mem_map.mpr ⟨(q.2, q.1), List.mem_reverse.mpr h, rfl⟩

theorem mem_of_mem_pairwise {α : Type} {l : List α} {q : α × α}
    (h : q ∈ pairwise l) : q.1 ∈ l ∧ q.2 ∈ l := by
  induction l with
  | nil => simp at h
  | cons a l ih =>
    cases l with
    | nil => simp at h
    | cons b rest =>
      rw [pairwise_cons_cons, List.mem_cons] at h
      rcases h with h | h
      · subst h
        exact ⟨by simp, by simp⟩
      · obtain ⟨h1, h2⟩ := ih h
        exact ⟨List.mem_cons_of_mem a h1, List.mem_cons_of_mem a h2⟩

/-! ### Rename extraction from a plan -/

/-- Is an operation a rename (a `mv -n` entry)? -/
def isRename : Op → Bool
  | Op.rename _ _ => true
  | _ => false

theorem filter_isRename_path_remove_ops (fs : FSProbe) (rr : Bool) (path : String) :
    (path_remove_ops fs rr path).filter isRename = [] := by
  rw [path_remove_ops]
  split
  · rfl
  · split
    · split <;> rfl
    · rfl

theorem filter_isRename_flatMap_remove (fs : FSProbe) (rr : Bool) (l : List String) :
    (l.flatMap (path_remove_ops fs rr)).filter isRename = [] := by
  induction l with
  | nil => rfl
  | cons x l ih =>
    rw [List.flatMap_cons, List.filter_append, ih, filter_isRename_path_remove_ops]
    rfl

theorem filter_isRename_map_makedirs (l : List String) :
    (l.map Op.makedirs).filter isRename = [] := by
  induction l with
  | nil => rfl
  | cons x l ih => simpa [isRename] using ih

theorem filter_isRename_map_rmdir (l : List String) :
    (l.map Op.rmdir).filter isRename = [] := by
  induction l with
  | nil => rfl
  | cons x l ih => simpa [isRename] using ih

theorem filter_isRename_map_rename (l : List (String × String)) :
    ((l.map (fun q => Op.rename q.2 q.1)).filter isRename) =
      l.map (fun q => Op.rename q.2 q.1) := by
  induction l with
  | nil => rfl
  | cons x l ih => simpa [isRename] using ih

/-- Chain loop with no nested-move pair: pure tail-to-head renames. -/
theorem foldl_chainPairOps_all_plain (tmpN : String) (l : List (String × String)) :
    ∀ acc : List Op × String, (∀ q ∈ l, startsWithDir q.2 q.1 = false) →
    l.foldl (chainPairOps tmpN) acc =
      (acc.1 ++ l.map (fun q => Op.rename q.2 q.1), acc.2) := by
  induction l with
  | nil =>
    intro acc _
    simp
  | cons q l ih =>
    intro acc hall
    have hq : startsWithDir q.2 q.1 = false := hall q (by simp)
    rw [List.foldl_cons]
    rw [show chainPairOps tmpN acc q = (acc.1 ++ [Op.rename q.2 q.1], acc.2) by
      rw [chainPairOps, hq]
      simp]
    rw [ih _ (fun r hr => hall r (List.mem_cons_of_mem q hr))]
    simp

/-- C2: For every chain `[p0, ..., pn]` none of whose edges has a
destination lying inside its source, the planner emits the rename
operations in tail-to-head order: `rename(p(n-1), pn)` first, down to
`rename(p0, p1)` last — the renames of the generated plan are exactly
the reversed edge list. -/
theorem generate_operations_chain_tail_to_head (fs : FSProbe) (tmpN cwd : String)
    (p : List String) (removals : List String) (rr : Bool)
    (hedges : ∀ q ∈ pairwise p, startsWithDir q.1 q.2 = false) :
    (generate_operations fs tmpN cwd [p] [] removals rr).filter isRename =
      ((pairwise p).map (fun q => Op.rename q.1 q.2)).reverse := by
  have hall : ∀ q ∈ pairwise p.reverse, startsWithDir q.2 q.1 = false := by
    intro q hq
    exact hedges (q.2, q.1) (mem_pairwise_reverse.mp hq)
  rw [generate_operations]
  simp only [chainsOps, List.foldl_cons, List.foldl_nil]
  rw [foldl_chainPairOps_all_plain tmpN (pairwise p.reverse) _ hall]
  simp [remove_tmpdir, List.filter_append, filter_isRename_flatMap_remove,
    filter_isRename_map_makedirs, filter_isRename_map_rmdir,
    filter_isRename_map_rename, isRename, pairwise_reverse, List.map_map,
    Function.comp_def, List.map_reverse]
  intro a x y hxy ha
  subst ha
  rfl

/-- Witness for `generate_operations_chain_tail_to_head` on the chain
`[a, b, c]`. -/
theorem generate_operations_chain_tail_to_head_witness :
    (generate_operations ⟨fun _ => false, fun _ => false, fun _ => false⟩
        "tmp_x" "/w" [["a", "b", "c"]] [] [] false).filter isRename =
      ((pairwise ["a", "b", "c"]).map (fun q => Op.rename q.1 q.2)).reverse :=
  generate_operations_chain_tail_to_head ⟨fun _ => false, fun _ => false, fun _ => false⟩
    "tmp_x" "/w" ["a", "b", "c"] [] false (by decide)

/-! ### Temporary-directory bookkeeping through the planner folds -/

/-- Is an operation the creation of a (temporary) directory via
`os.mkdir`? -/
def isMkdir : Op → Bool
  | Op.mkdir _ => true
  | _ => false

theorem startsWithDir_pyJoin (a b : String) (ha : a ≠ "") :
    startsWithDir a (pyJoin a b) = true := by
  rw [startsWithDir, pyJoin, if_neg ha]
  rw [String.data_append (a ++ pySep) b, List.isPrefixOf_iff_prefix]
  exact List.prefix_append _ _

theorem create_tmpdir_snd {tmpN st : String} (hT : tmpN ≠ "")
    (hst : st = "" ∨ st = tmpN) : (create_tmpdir tmpN st).2 = tmpN := by
  rcases hst with h | h
  · rw [create_tmpdir, if_pos h]
  · rw [create_tmpdir, if_neg (h ▸ hT)]
    exact h

theorem create_tmpdir_fst_sub {tmpN st : String} :
    ∀ o ∈ (create_tmpdir tmpN st).1, o = Op.mkdir tmpN := by
  intro o ho
  rw [create_tmpdir] at ho
  split at ho
  · simpa using ho
  · simp at ho

/-- One chain-pair step appends operations and keeps the `tmpdir` state
in `{"", tmpN}`. -/
theorem chainPairOps_shape (tmpN : String) (hT : tmpN ≠ "") (acc : List Op × String)
    (q : String × String) (hst : acc.2 = "" ∨ acc.2 = tmpN) :
    ((chainPairOps tmpN acc q).2 = acc.2 ∨
      (acc.2 = "" ∧ (chainPairOps tmpN acc q).2 = tmpN)) ∧
    ((chainPairOps tmpN acc q).2 = "" ∨ (chainPairOps tmpN acc q).2 = tmpN) ∧
    (∃ t, (chainPairOps tmpN acc q).1 = acc.1 ++ t ∧
      ∀ o ∈ t, o = Op.mkdir tmpN ∨
        (startsWithDir q.2 q.1 = true ∧
          (o = Op.rename q.2 (pyJoin tmpN (basename q.2)) ∨
           o = Op.makedirs (dirname q.1) ∨
           o = Op.rename (pyJoin tmpN (basename q.2)) q.1)) ∨
        (startsWithDir q.2 q.1 = false ∧ o = Op.rename q.2 q.1)) := by
  rw [chainPairOps]
  by_cases hsw : startsWithDir q.2 q.1
  · rw [if_pos hsw]
    have h2 := create_tmpdir_snd hT hst
    refine ⟨?_, ?_, ?_⟩
    · rcases hst with h | h
      · exact Or.inr ⟨h, h2⟩
      · exact Or.inl (h2.trans h.symm)
    · exact Or.inr h2
    · refine ⟨(create_tmpdir tmpN acc.2).1 ++
        [Op.rename q.2 (pyJoin (create_tmpdir tmpN acc.2).2 (basename q.2)),
         Op.makedirs (dirname q.1),
         Op.rename (pyJoin (create_tmpdir tmpN acc.2).2 (basename q.2)) q.1], by
          simp, ?_⟩
      intro o ho
      rcases List.mem_append.mp ho with h | h
      · exact Or.inl (create_tmpdir_fst_sub o h)
      · rw [h2] at h
        simp only [List.mem_cons, List.not_mem_nil, or_false] at h
        rcases h with h | h | h
        · exact Or.inr (Or.inl ⟨hsw, Or.inl h⟩)
        · exact Or.inr (Or.inl ⟨hsw, Or.inr (Or.inl h)⟩)
        · exact Or.inr (Or.inl ⟨hsw, Or.inr (Or.inr h)⟩)
  · rw [if_neg hsw]
    refine ⟨Or.inl rfl, hst, [Op.rename q.2 q.1], rfl, ?_⟩
    intro o ho
    simp only [List.mem_cons, List.not_mem_nil, or_false] at ho
    exact Or.inr (Or.inr ⟨Bool.of_not_eq_true hsw, ho⟩)

/-- One cycle step appends operations and keeps the `tmpdir` state in
`{"", tmpN}`. -/
theorem cycleOps_shape (tmpN : String) (hT : tmpN ≠ "") (acc : List Op × String)
    (c : List String) (hst : acc.2 = "" ∨ acc.2 = tmpN) :
    ((cycleOps tmpN acc c).2 = acc.2 ∨ (acc.2 = "" ∧ (cycleOps tmpN acc c).2 = tmpN)) ∧
    ((cycleOps tmpN acc c).2 = "" ∨ (cycleOps tmpN acc c).2 = tmpN) ∧
    (∃ t, (cycleOps tmpN acc c).1 = acc.1 ++ t ∧
      ∀ o ∈ t, o = Op.mkdir tmpN ∨
        (∃ c0 rest, c = c0 :: rest ∧
          (o = Op.rename c0 (pyJoin tmpN (basename c0)) ∨
           o ∈ (pairwise ((pyJoin tmpN (basename c0) :: rest).reverse)).map
                (fun q => Op.rename q.2 q.1)))) := by
  match c with
  | [] =>
    rw [cycleOps]
    exact ⟨Or.inl rfl, hst, [], by simp, by simp⟩
  | c0 :: rest =>
    rw [cycleOps]
    have h2 := create_tmpdir_snd hT hst
    refine ⟨?_, ?_, ?_⟩
    · rcases hst with h | h
      · exact Or.inr ⟨h, h2⟩
      · exact Or.inl (h2.trans h.symm)
    · exact Or.inr h2
    · refine ⟨(create_tmpdir tmpN acc.2).1 ++
        ([Op.rename c0 (pyJoin (create_tmpdir tmpN acc.2).2 (basename c0))] ++
          (pairwise ((pyJoin (create_tmpdir tmpN acc.2).2 (basename c0) :: rest).reverse)).map
            (fun q => Op.rename q.2 q.1)), by simp, ?_⟩
      intro o ho
      rw [h2] at ho
      rcases List.mem_append.mp ho with h | h
      · exact Or.inl (create_tmpdir_fst_sub o h)
      · rcases List.mem_append.mp h with h3 | h3
        · simp only [List.mem_cons, List.not_mem_nil, or_false] at h3
          exact Or.inr ⟨c0, rest, rfl, Or.inl h3⟩
        · exact Or.inr ⟨c0, rest, rfl, Or.inr h3⟩

/-- Lift the per-step shape (state in `{"", tmpN}`, appended operations
characterized by `emit`) to a left fold. -/
theorem foldl_shape {β : Type} (tmpN : String)
    (f : (List Op × String) → β → List Op × String)
    (emit : β → Op → Prop)
    (hstep : ∀ acc q, (acc.2 = "" ∨ acc.2 = tmpN) →
      ((f acc q).2 = acc.2 ∨ (acc.2 = "" ∧ (f acc q).2 = tmpN)) ∧
      ((f acc q).2 = "" ∨ (f acc q).2 = tmpN) ∧
      (∃ t, (f acc q).1 = acc.1 ++ t ∧ ∀ o ∈ t, o = Op.mkdir tmpN ∨ emit q o)) :
    ∀ (l : List β) (acc), (acc.2 = "" ∨ acc.2 = tmpN) →
      (((l.foldl f acc).2 = acc.2 ∨ (acc.2 = "" ∧ (l.foldl f acc).2 = tmpN)) ∧
       ((l.foldl f acc).2 = "" ∨ (l.foldl f acc).2 = tmpN) ∧
       (∃ t, (l.foldl f acc).1 = acc.1 ++ t ∧
         ∀ o ∈ t, o = Op.mkdir tmpN ∨ ∃ q ∈ l, emit q o)) := by
  intro l
  induction l with
  | nil =>
    intro acc hst
    exact ⟨Or.inl rfl, hst, [], by simp, by simp⟩
  | cons q l ih =>
    intro acc hst
    obtain ⟨hs1, hs2, t1, ht1, he1⟩ := hstep acc q hst
    obtain ⟨hs1r, hs2r, t2, ht2, he2⟩ := ih (f acc q) hs2
    rw [List.foldl_cons]
    refine ⟨?_, hs2r, t1 ++ t2, by rw [ht2, ht1, List.append_assoc], ?_⟩
    · rcases hs1r with h | h
      · rcases hs1 with h2 | h2
        · exact Or.inl (h.trans h2)
        · exact Or.inr ⟨h2.1, h.trans h2.2⟩
      · rcases hs1 with h2 | h2
        · exact Or.inr ⟨h2.symm.trans h.1, h.2⟩
        · exact Or.inr ⟨h2.1, h.2⟩
    · intro o ho
      rcases List.mem_append.mp ho with h | h
      · rcases he1 o h with h2 | h2
        · exact Or.inl h2
        · exact Or.inr ⟨q, by simp, h2⟩
      · rcases he2 o h with h2 | h2
        · exact Or.inl h2
        · obtain ⟨q2, hq2, hq3⟩ := h2
          exact Or.inr ⟨q2, List.mem_cons_of_mem q hq2, hq3⟩

/-- Lift the per-step `mkdir`-accounting to a left fold: across the fold
the `mkdir tmpN` operation is appended exactly when the state flips from
`""` to `tmpN`, and at most once. -/
theorem foldl_mkdir {β : Type} (tmpN : String) (hT : tmpN ≠ "")
    (f : (List Op × String) → β → List Op × String)
    (hstate : ∀ acc q, (acc.2 = "" ∨ acc.2 = tmpN) → ((f acc q).2 = "" ∨ (f acc q).2 = tmpN))
    (hstep : ∀ acc q, (acc.2 = "" ∨ acc.2 = tmpN) →
      (((f acc q).2 = acc.2 ∧ (f acc q).1.filter isMkdir = acc.1.filter isMkdir) ∨
       (acc.2 = "" ∧ (f acc q).2 = tmpN ∧
        (f acc q).1.filter isMkdir = acc.1.filter isMkdir ++ [Op.mkdir tmpN]))) :
    ∀ (l : List β) (acc), (acc.2 = "" ∨ acc.2 = tmpN) →
      (((l.foldl f acc).2 = acc.2 ∧
        (l.foldl f acc).1.filter isMkdir = acc.1.filter isMkdir) ∨
       (acc.2 = "" ∧ (l.foldl f acc).2 = tmpN ∧
        (l.foldl f acc).1.filter isMkdir = acc.1.filter isMkdir ++ [Op.mkdir tmpN])) := by
  intro l
  induction l with
  | nil =>
    intro acc _
    exact Or.inl ⟨rfl, rfl⟩
  | cons q l ih =>
    intro acc hst
    have hst2 := hstate acc q hst
    rw [List.foldl_cons]
    rcases hstep acc q hst with ⟨h1, h2⟩ | ⟨h1, h2, h3⟩
    · rcases ih (f acc q) hst2 with ⟨g1, g2⟩ | ⟨g1, g2, g3⟩
      · exact Or.inl ⟨g1.trans h1, g2.trans h2⟩
      · exact Or.inr ⟨h1.symm.trans g1, g2, g3.trans (by rw [h2])⟩
    · rcases ih (f acc q) hst2 with ⟨g1, g2⟩ | ⟨g1, g2, g3⟩
      · exact Or.inr ⟨h1, g1.trans h2, g2.trans h3⟩
      · exact absurd (h2.symm.trans g1) hT

/-- A fold of an appending step function only extends the operation
list. -/
theorem foldl_extends {β : Type} (f : (List Op × String) → β → List Op × String)
    (hext : ∀ acc q, ∃ t, (f acc q).1 = acc.1 ++ t) :
    ∀ (l : List β) (acc), ∃ t, (l.foldl f acc).1 = acc.1 ++ t := by
  intro l
  induction l with
  | nil => exact fun acc => ⟨[], by simp⟩
  | cons q l ih =>
    intro acc
    obtain ⟨t1, ht1⟩ := hext acc q
    obtain ⟨t2, ht2⟩ := ih (f acc q)
    exact ⟨t1 ++ t2, by rw [List.foldl_cons, ht2, ht1, List.append_assoc]⟩

/-- If some element of the fold input makes the step emit the block `B`
as a contiguous run, the block is a contiguous run of the fold output. -/
theorem foldl_block {β : Type} (tmpN : String)
    (f : (List Op × String) → β → List Op × String)
    (hstate : ∀ acc q, (acc.2 = "" ∨ acc.2 = tmpN) → ((f acc q).2 = "" ∨ (f acc q).2 = tmpN))
    (hext : ∀ acc q, ∃ t, (f acc q).1 = acc.1 ++ t)
    (q0 : β) (B : List Op)
    (hq0 : ∀ acc, (acc.2 = "" ∨ acc.2 = tmpN) → ∃ u v, (f acc q0).1 = u ++ B ++ v) :
    ∀ (l : List β) (acc), (acc.2 = "" ∨ acc.2 = tmpN) → q0 ∈ l →
      ∃ u v, (l.foldl f acc).1 = u ++ B ++ v := by
  intro l
  induction l with
  | nil =>
    intro acc _ h
    simp at h
  | cons q l ih =>
    intro acc hst hq
    rw [List.foldl_cons]
    rcases List.mem_cons.mp hq with h | h
    · subst h
      obtain ⟨u, v, huv⟩ := hq0 acc hst
      obtain ⟨t, ht⟩ := foldl_extends f hext l (f acc q0)
      exact ⟨u, v ++ t, by rw [ht, huv, List.append_assoc (u ++ B) v t]⟩
    · exact ih (f acc q) (hstate acc q hst) h

/-- Operations a chain pair `(dst, src)` may emit besides the lazy
`mkdir` of the temporary directory. -/
def chainEmits (tmpN : String) (q : String × String) (o : Op) : Prop :=
  (startsWithDir q.2 q.1 = true ∧
    (o = Op.rename q.2 (pyJoin tmpN (basename q.2)) ∨
     o = Op.makedirs (dirname q.1) ∨
     o = Op.rename (pyJoin tmpN (basename q.2)) q.1)) ∨
  (startsWithDir q.2 q.1 = false ∧ o = Op.rename q.2 q.1)

/-- Operations a cycle may emit besides the lazy `mkdir`. -/
def cycleEmits (tmpN : String) (c : List String) (o : Op) : Prop :=
  ∃ c0 rest, c = c0 :: rest ∧
    (o = Op.rename c0 (pyJoin tmpN (basename c0)) ∨
     o ∈ (pairwise ((pyJoin tmpN (basename c0) :: rest).reverse)).map
          (fun q => Op.rename q.2 q.1))

theorem chainsOps_shape (tmpN : String) (hT : tmpN ≠ "") (paths : List (List String))
    (acc : List Op × String) (hst : acc.2 = "" ∨ acc.2 = tmpN) :
    ((chainsOps tmpN paths acc).2 = acc.2 ∨
      (acc.2 = "" ∧ (chainsOps tmpN paths acc).2 = tmpN)) ∧
    ((chainsOps tmpN paths acc).2 = "" ∨ (chainsOps tmpN paths acc).2 = tmpN) ∧
    (∃ t, (chainsOps tmpN paths acc).1 = acc.1 ++ t ∧
      ∀ o ∈ t, o = Op.mkdir tmpN ∨
        ∃ p ∈ paths, ∃ q ∈ pairwise p.reverse, chainEmits tmpN q o) := by
  have hinner : ∀ (p : List String) (a : List Op × String), (a.2 = "" ∨ a.2 = tmpN) →
      ((((pairwise p.reverse).foldl (chainPairOps tmpN) a).2 = a.2 ∨
        (a.2 = "" ∧ ((pairwise p.reverse).foldl (chainPairOps tmpN) a).2 = tmpN)) ∧
       (((pairwise p.reverse).foldl (chainPairOps tmpN) a).2 = "" ∨
        ((pairwise p.reverse).foldl (chainPairOps tmpN) a).2 = tmpN) ∧
       (∃ t, ((pairwise p.reverse).foldl (chainPairOps tmpN) a).1 = a.1 ++ t ∧
         ∀ o ∈ t, o = Op.mkdir tmpN ∨ ∃ q ∈ pairwise p.reverse, chainEmits tmpN q o)) :=
    fun p a ha =>
      foldl_shape tmpN (chainPairOps tmpN) (chainEmits tmpN)
        (fun a2 q h2 => chainPairOps_shape tmpN hT a2 q h2) (pairwise p.reverse) a ha
  exact foldl_shape tmpN (fun a p => (pairwise p.reverse).foldl (chainPairOps tmpN) a)
    (fun p o => ∃ q ∈ pairwise p.reverse, chainEmits tmpN q o)
    (fun a p ha => hinner p a ha) paths acc hst

theorem cyclesFold_shape (tmpN : String) (hT : tmpN ≠ "") (cycles : List (List String))
    (acc : List Op × String) (hst : acc.2 = "" ∨ acc.2 = tmpN) :
    (((cycles.foldl (cycleOps tmpN) acc).2 = acc.2 ∨
      (acc.2 = "" ∧ (cycles.foldl (cycleOps tmpN) acc).2 = tmpN)) ∧
     ((cycles.foldl (cycleOps tmpN) acc).2 = "" ∨
      (cycles.foldl (cycleOps tmpN) acc).2 = tmpN) ∧
     (∃ t, (cycles.foldl (cycleOps tmpN) acc).1 = acc.1 ++ t ∧
       ∀ o ∈ t, o = Op.mkdir tmpN ∨ ∃ c ∈ cycles, cycleEmits tmpN c o)) :=
  foldl_shape tmpN (cycleOps tmpN) (cycleEmits tmpN)
    (fun a c h => cycleOps_shape tmpN hT a c h) cycles acc hst

theorem filter_isMkdir_append_nonmk {l t : List Op}
    (ht : ∀ o ∈ t, isMkdir o = false) :
    (l ++ t).filter isMkdir = l.filter isMkdir := by
  rw [List.filter_append]
  have h2 : t.filter isMkdir = [] := by
    rw [List.filter_eq_nil_iff]
    intro a ha
    simp [ht a ha]
  rw [h2, List.append_nil]

theorem filter_isMkdir_map_rename2 (l : List (String × String)) :
    ((l.map (fun q => Op.rename q.2 q.1)).filter isMkdir) = [] := by
  induction l with
  | nil => rfl
  | cons x l ih => simpa [isMkdir] using ih

theorem chainPairOps_mkdir (tmpN : String) (hT : tmpN ≠ "") (acc : List Op × String)
    (q : String × String) (hst : acc.2 = "" ∨ acc.2 = tmpN) :
    (((chainPairOps tmpN acc q).2 = acc.2 ∧
      (chainPairOps tmpN acc q).1.filter isMkdir = acc.1.filter isMkdir) ∨
     (acc.2 = "" ∧ (chainPairOps tmpN acc q).2 = tmpN ∧
      (chainPairOps tmpN acc q).1.filter isMkdir = acc.1.filter isMkdir ++ [Op.mkdir tmpN])) := by
  rw [chainPairOps]
  by_cases hsw : startsWithDir q.2 q.1
  · rw [if_pos hsw]
    rcases hst with h | h
    · refine Or.inr ⟨h, create_tmpdir_snd hT (Or.inl h), ?_⟩
      rw [h, create_tmpdir, if_pos rfl]
      simp [isMkdir, List.filter_append]
    · refine Or.inl ⟨(create_tmpdir_snd hT (Or.inr h)).trans h.symm, ?_⟩
      rw [h, create_tmpdir, if_neg hT]
      simp [isMkdir, List.filter_append]
  · rw [if_neg hsw]
    refine Or.inl ⟨rfl, ?_⟩
    simp [isMkdir, List.filter_append]

theorem cycleOps_mkdir (tmpN : String) (hT : tmpN ≠ "") (acc : List Op × String)
    (c : List String) (hst : acc.2 = "" ∨ acc.2 = tmpN) :
    (((cycleOps tmpN acc c).2 = acc.2 ∧
      (cycleOps tmpN acc c).1.filter isMkdir = acc.1.filter isMkdir) ∨
     (acc.2 = "" ∧ (cycleOps tmpN acc c).2 = tmpN ∧
      (cycleOps tmpN acc c).1.filter isMkdir = acc.1.filter isMkdir ++ [Op.mkdir tmpN])) := by
  match c with
  | [] =>
    rw [cycleOps]
    exact Or.inl ⟨rfl, rfl⟩
  | c0 :: rest =>
    rw [cycleOps]
    rcases hst with h | h
    · refine Or.inr ⟨h, create_tmpdir_snd hT (Or.inl h), ?_⟩
      rw [h, create_tmpdir, if_pos rfl]
      simp [isMkdir, List.filter_append, filter_isMkdir_map_rename2]
    · refine Or.inl ⟨(create_tmpdir_snd hT (Or.inr h)).trans h.symm, ?_⟩
      rw [h, create_tmpdir, if_neg hT]
      simp [isMkdir, List.filter_append, filter_isMkdir_map_rename2]

theorem chainsOps_mkdir (tmpN : String) (hT : tmpN ≠ "") (paths : List (List String))
    (acc : List Op × String) (hst : acc.2 = "" ∨ acc.2 = tmpN) :
    (((chainsOps tmpN paths acc).2 = acc.2 ∧
      (chainsOps tmpN paths acc).1.filter isMkdir = acc.1.filter isMkdir) ∨
     (acc.2 = "" ∧ (chainsOps tmpN paths acc).2 = tmpN ∧
      (chainsOps tmpN paths acc).1.filter isMkdir = acc.1.filter isMkdir ++ [Op.mkdir tmpN])) := by
  have hinnerstate : ∀ (a : List Op × String) (p : List String), (a.2 = "" ∨ a.2 = tmpN) →
      (((pairwise p.reverse).foldl (chainPairOps tmpN) a).2 = "" ∨
       ((pairwise p.reverse).foldl (chainPairOps tmpN) a).2 = tmpN) :=
    fun a p ha =>
      (foldl_shape tmpN (chainPairOps tmpN) (chainEmits tmpN)
        (fun a2 q h2 => chainPairOps_shape tmpN hT a2 q h2) (pairwise p.reverse) a ha).2.1
  have hinner : ∀ (a : List Op × String) (p : List String), (a.2 = "" ∨ a.2 = tmpN) →
      ((((pairwise p.reverse).foldl (chainPairOps tmpN) a).2 = a.2 ∧
        ((pairwise p.reverse).foldl (chainPairOps tmpN) a).1.filter isMkdir =
          a.1.filter isMkdir) ∨
       (a.2 = "" ∧ ((pairwise p.reverse).foldl (chainPairOps tmpN) a).2 = tmpN ∧
        ((pairwise p.reverse).foldl (chainPairOps tmpN) a).1.filter isMkdir =
          a.1.filter isMkdir ++ [Op.mkdir tmpN])) :=
    fun a p ha =>
      foldl_mkdir tmpN hT (chainPairOps tmpN)
        (fun a2 q h2 => (chainPairOps_shape tmpN hT a2 q h2).2.1)
        (fun a2 q h2 => chainPairOps_mkdir tmpN hT a2 q h2) (pairwise p.reverse) a ha
  exact foldl_mkdir tmpN hT (fun a p => (pairwise p.reverse).foldl (chainPairOps tmpN) a)
    (fun a p ha => hinnerstate a p ha) (fun a p ha => hinner a p ha) paths acc hst

theorem cyclesFold_mkdir (tmpN : String) (hT : tmpN ≠ "") (cycles : List (List String))
    (acc : List Op × String) (hst : acc.2 = "" ∨ acc.2 = tmpN) :
    (((cycles.foldl (cycleOps tmpN) acc).2 = acc.2 ∧
      (cycles.foldl (cycleOps tmpN) acc).1.filter isMkdir = acc.1.filter isMkdir) ∨
     (acc.2 = "" ∧ (cycles.foldl (cycleOps tmpN) acc).2 = tmpN ∧
      (cycles.foldl (cycleOps tmpN) acc).1.filter isMkdir =
        acc.1.filter isMkdir ++ [Op.mkdir tmpN])) :=
  foldl_mkdir tmpN hT (cycleOps tmpN)
    (fun a c h => (cycleOps_shape tmpN hT a c h).2.1)
    (fun a c h => cycleOps_mkdir tmpN hT a c h) cycles acc hst

/-- A fold over cycles that contains at least one non-empty cycle always
ends with the temporary directory created. -/
theorem cyclesFold_creates (tmpN : String) (hT : tmpN ≠ "") :
    ∀ (cycles : List (List String)) (acc : List Op × String),
      (acc.2 = "" ∨ acc.2 = tmpN) → (∃ c ∈ cycles, c ≠ []) →
      (cycles.foldl (cycleOps tmpN) acc).2 = tmpN := by
  intro cycles
  induction cycles with
  | nil =>
    intro acc _ h
    simp at h
  | cons c rest ih =>
    intro acc hst hex
    rw [List.foldl_cons]
    have hstep := cycleOps_shape tmpN hT acc c hst
    by_cases hc : c = []
    · subst hc
      obtain ⟨c2, hc2, hc2ne⟩ := hex
      rcases List.mem_cons.mp hc2 with h | h
      · exact absurd h hc2ne
      · rw [show cycleOps tmpN acc [] = acc from by rw [cycleOps]]
        exact ih acc hst ⟨c2, h, hc2ne⟩
    · obtain ⟨c0, crest, hcc⟩ := List.exists_cons_of_ne_nil hc
      have hstc : (cycleOps tmpN acc c).2 = tmpN := by
        subst hcc
        rw [cycleOps]
        exact create_tmpdir_snd hT hst
      rcases (cyclesFold_shape tmpN hT rest (cycleOps tmpN acc c)
          (Or.inr hstc)).1 with h | h
      · exact h.trans hstc
      · exact h.2

/-- Lemma: `generate_operations` unfolded into its section structure:
cd marker, removals, directory creation, chains, directory cleanup,
cycles, temporary-directory removal. -/
theorem generate_operations_decomp (fs : FSProbe) (tmpN cwd : String)
    (paths cycles : List (List String)) (removals : List String) (rr : Bool) :
    generate_operations fs tmpN cwd paths cycles removals rr =
      (cycles.foldl (cycleOps tmpN)
        ((chainsOps tmpN paths
            ([Op.cd cwd] ++ removals.flatMap (path_remove_ops fs rr) ++
              (sortByLenAsc (listDiff (dstDirs paths) (srcDirs paths))).map Op.makedirs,
             "")).1 ++
          (sortByLenDesc (listDiff (srcDirs paths) (dstDirs paths))).map Op.rmdir,
         (chainsOps tmpN paths
            ([Op.cd cwd] ++ removals.flatMap (path_remove_ops fs rr) ++
              (sortByLenAsc (listDiff (dstDirs paths) (srcDirs paths))).map Op.makedirs,
             "")).2)).1 ++
      remove_tmpdir
        ((cycles.foldl (cycleOps tmpN)
          ((chainsOps tmpN paths
              ([Op.cd cwd] ++ removals.flatMap (path_remove_ops fs rr) ++
                (sortByLenAsc (listDiff (dstDirs paths) (srcDirs paths))).map Op.makedirs,
               "")).1 ++
            (sortByLenDesc (listDiff (srcDirs paths) (dstDirs paths))).map Op.rmdir,
           (chainsOps tmpN paths
              ([Op.cd cwd] ++ removals.flatMap (path_remove_ops fs rr) ++
                (sortByLenAsc (listDiff (dstDirs paths) (srcDirs paths))).map Op.makedirs,
               "")).2)).2) := rfl

theorem filter_isMkdir_map_makedirs (l : List String) :
    ((l.map Op.makedirs).filter isMkdir) = [] := by
  induction l with
  | nil => rfl
  | cons x l ih => simpa [isMkdir] using ih

theorem filter_isMkdir_map_rmdir (l : List String) :
    ((l.map Op.rmdir).filter isMkdir) = [] := by
  induction l with
  | nil => rfl
  | cons x l ih => simpa [isMkdir] using ih

/-- The last rename of a planned cycle block moves the temporary path to
the second position of the cycle. -/
theorem cycleOps_extends (tmpN : String) (acc : List Op × String) (c : List String) :
    ∃ t, (cycleOps tmpN acc c).1 = acc.1 ++ t := by
  match c with
  | [] =>
    rw [cycleOps]
    exact ⟨[], by simp⟩
  | c0 :: rest =>
    rw [cycleOps]
    refine ⟨(create_tmpdir tmpN acc.2).1 ++
      ([Op.rename c0 (pyJoin (create_tmpdir tmpN acc.2).2 (basename c0))] ++
        (pairwise ((pyJoin (create_tmpdir tmpN acc.2).2 (basename c0) :: rest).reverse)).map
          (fun q => Op.rename q.2 q.1)), ?_⟩
    simp

theorem cycle_block_last (tmpN c0 c1 : String) (rest : List String) :
    ((pairwise ((pyJoin tmpN (basename c0) :: c1 :: rest).reverse)).map
      (fun q => Op.rename q.2 q.1)).getLast? =
    some (Op.rename (pyJoin tmpN (basename c0)) c1) := by
  rw [pairwise_reverse, List.map_map, List.map_reverse, List.getLast?_reverse,
    pairwise_cons_cons]
  rfl

/-- C3: For an input decomposing into at least one cycle, the plan
creates exactly one temporary staging directory, removes it exactly once
as the final operation of the plan, and handles each cycle by renaming
its first element into the temporary directory, substituting the
temporary path, and emitting the remaining renames tail-to-head, the
last being the rename of the temporary path into the second
position of the cycle. -/
theorem generate_operations_cycle_tmpdir (fs : FSProbe) (tmpN cwd : String)
    (paths cycles : List (List String)) (rr : Bool)
    (hT : tmpN ≠ "")
    (hcy : cycles ≠ [])
    (hlen : ∀ c ∈ cycles, 2 ≤ c.length)
    (hfresh : tmpN ∉ listDiff (srcDirs paths) (dstDirs paths)) :
    ((generate_operations fs tmpN cwd paths cycles [] rr).filter isMkdir =
      [Op.mkdir tmpN]) ∧
    ((generate_operations fs tmpN cwd paths cycles [] rr).count (Op.rmdir tmpN) = 1) ∧
    ((generate_operations fs tmpN cwd paths cycles [] rr).getLast? =
      some (Op.rmdir tmpN)) ∧
    (∀ c0 c1 rest, (c0 :: c1 :: rest) ∈ cycles →
      (∃ u v, generate_operations fs tmpN cwd paths cycles [] rr =
        u ++ ([Op.rename c0 (pyJoin tmpN (basename c0))] ++
          (pairwise ((pyJoin tmpN (basename c0) :: c1 :: rest).reverse)).map
            (fun q => Op.rename q.2 q.1)) ++ v) ∧
      ((pairwise ((pyJoin tmpN (basename c0) :: c1 :: rest).reverse)).map
          (fun q => Op.rename q.2 q.1)).getLast? =
        some (Op.rename (pyJoin tmpN (basename c0)) c1)) := by
  rw [generate_operations_decomp]
  set ops1 := [Op.cd cwd] ++ ([] : List String).flatMap (path_remove_ops fs rr) ++
    (sortByLenAsc (listDiff (dstDirs paths) (srcDirs paths))).map Op.makedirs with hops1
  set A := chainsOps tmpN paths (ops1, "") with hAdef
  set R := (sortByLenDesc (listDiff (srcDirs paths) (dstDirs paths))).map Op.rmdir
    with hRdef
  set C := cycles.foldl (cycleOps tmpN) (A.1 ++ R, A.2) with hCdef
  have hA := chainsOps_shape tmpN hT paths (ops1, "") (Or.inl rfl)
  have hAstate : A.2 = "" ∨ A.2 = tmpN := hA.2.1
  have haccstate : (A.1 ++ R, A.2).2 = "" ∨ (A.1 ++ R, A.2).2 = tmpN := hAstate
  have hsomecycle : ∃ c ∈ cycles, c ≠ [] := by
    obtain ⟨c, hc⟩ := List.exists_mem_of_ne_nil cycles hcy
    refine ⟨c, hc, ?_⟩
    intro hnil
    have := hlen c hc
    rw [hnil] at this
    simp at this
  have hfinal : C.2 = tmpN := by
    rw [hCdef]
    exact cyclesFold_creates tmpN hT cycles (A.1 ++ R, A.2) haccstate hsomecycle
  have hrm : remove_tmpdir C.2 = [Op.rmdir tmpN] := by
    rw [hfinal, remove_tmpdir, if_neg hT]
  have hops1filter : ops1.filter isMkdir = [] := by
    rw [hops1]
    simp [List.filter_append, filter_isMkdir_map_makedirs, isMkdir]
  have haccfilter : (A.1 ++ R).filter isMkdir = A.1.filter isMkdir := by
    rw [hRdef, List.filter_append, filter_isMkdir_map_rmdir, List.append_nil]
  have hAm : (A.2 = "" ∧ A.1.filter isMkdir = ops1.filter isMkdir) ∨
      (A.2 = tmpN ∧ A.1.filter isMkdir = ops1.filter isMkdir ++ [Op.mkdir tmpN]) := by
    have h := chainsOps_mkdir tmpN hT paths (ops1, "") (Or.inl rfl)
    rw [← hAdef] at h
    rcases h with ⟨h1, h2⟩ | ⟨h1, h2, h3⟩
    · exact Or.inl ⟨h1, h2⟩
    · exact Or.inr ⟨h2, h3⟩
  have hCm : (C.2 = A.2 ∧ C.1.filter isMkdir = (A.1 ++ R).filter isMkdir) ∨
      (A.2 = "" ∧ C.2 = tmpN ∧
        C.1.filter isMkdir = (A.1 ++ R).filter isMkdir ++ [Op.mkdir tmpN]) := by
    have h := cyclesFold_mkdir tmpN hT cycles (A.1 ++ R, A.2) haccstate
    rw [← hCdef] at h
    exact h
  have hCfilter : C.1.filter isMkdir = [Op.mkdir tmpN] := by
    rcases hCm with ⟨g1, g2⟩ | ⟨g1, g2, g3⟩
    · rcases hAm with ⟨f1, f2⟩ | ⟨f1, f2⟩
      · exact absurd (hfinal.symm.trans (g1.trans f1)) hT
      · rw [g2, haccfilter, f2, hops1filter]
        rfl
    · rcases hAm with ⟨f1, f2⟩ | ⟨f1, f2⟩
      · rw [g3, haccfilter, f2, hops1filter]
        rfl
      · exact absurd (f1.symm.trans g1) hT
  have hCmem : ∀ o ∈ C.1, o ∈ ops1 ∨ o = Op.mkdir tmpN ∨ o ∈ R ∨
      (∃ p ∈ paths, ∃ q ∈ pairwise p.reverse, chainEmits tmpN q o) ∨
      (∃ c ∈ cycles, cycleEmits tmpN c o) := by
    intro o ho
    obtain ⟨t, ht, hchar⟩ := (cyclesFold_shape tmpN hT cycles (A.1 ++ R, A.2) haccstate).2.2
    rw [← hCdef] at ht
    rw [ht] at ho
    rcases List.mem_append.mp ho with h | h
    · rcases List.mem_append.mp h with h2 | h2
      · obtain ⟨t2, ht2, hchar2⟩ := hA.2.2
        rw [← hAdef] at ht2
        rw [ht2] at h2
        rcases List.mem_append.mp h2 with h3 | h3
        · exact Or.inl h3
        · rcases hchar2 o h3 with h4 | h4
          · exact Or.inr (Or.inl h4)
          · exact Or.inr (Or.inr (Or.inr (Or.inl h4)))
      · exact Or.inr (Or.inr (Or.inl h2))
    · rcases hchar o h with h4 | h4
      · exact Or.inr (Or.inl h4)
      · exact Or.inr (Or.inr (Or.inr (Or.inr h4)))
  have hnotrmdir : Op.rmdir tmpN ∉ C.1 := by
    intro hmem
    rcases hCmem (Op.rmdir tmpN) hmem with h | h | h | h | h
    · rw [hops1] at h
      rcases List.mem_append.mp h with h2 | h2
      · rcases List.mem_append.mp h2 with h3 | h3
        · simp at h3
        · simp at h3
      · obtain ⟨a, _, ha2⟩ := List.mem_map.mp h2
        exact Op.noConfusion ha2
    · exact Op.noConfusion h
    · rw [hRdef] at h
      obtain ⟨a, ha, ha2⟩ := List.mem_map.mp h
      have : a = tmpN := by
        injection ha2
      subst this
      rw [sortByLenDesc, List.mem_mergeSort] at ha
      exact hfresh ha
    · obtain ⟨p, _, q, _, hch⟩ := h
      rcases hch with ⟨_, h5 | h5 | h5⟩ | ⟨_, h5⟩ <;> exact Op.noConfusion h5
    · obtain ⟨c, _, c0, rest, _, h5 | h5⟩ := h
      · exact Op.noConfusion h5
      · obtain ⟨q2, _, hq3⟩ := List.mem_map.mp h5
        exact Op.noConfusion hq3
  refine ⟨?_, ?_, ?_, ?_⟩
  · rw [List.filter_append, hrm, hCfilter]
    rfl
  · rw [List.count_append, hrm]
    rw [List.count_eq_zero.mpr hnotrmdir]
    simp
  · rw [hrm, List.getLast?_concat]
  · intro c0 c1 rest hc
    refine ⟨?_, cycle_block_last tmpN c0 c1 rest⟩
    have hq0 : ∀ acc : List Op × String, (acc.2 = "" ∨ acc.2 = tmpN) →
        ∃ u v, (cycleOps tmpN acc (c0 :: c1 :: rest)).1 =
          u ++ ([Op.rename c0 (pyJoin tmpN (basename c0))] ++
            (pairwise ((pyJoin tmpN (basename c0) :: c1 :: rest).reverse)).map
              (fun q => Op.rename q.2 q.1)) ++ v := by
      intro acc hst
      rw [cycleOps, create_tmpdir_snd hT hst]
      refine ⟨acc.1 ++ (create_tmpdir tmpN acc.2).1, [], ?_⟩
      simp
    obtain ⟨u, v, huv⟩ := foldl_block tmpN (cycleOps tmpN)
      (fun a c h => (cycleOps_shape tmpN hT a c h).2.1)
      (fun a c => cycleOps_extends tmpN a c)
      (c0 :: c1 :: rest) _ hq0 cycles (A.1 ++ R, A.2) haccstate hc
    refine ⟨u, v ++ remove_tmpdir C.2, ?_⟩
    rw [← hCdef] at huv
    rw [huv]
    simp [List.append_assoc]

/-- Witness for `generate_operations_cycle_tmpdir` at a two-element
swap cycle. -/
theorem generate_operations_cycle_tmpdir_witness :
    ((generate_operations ⟨fun _ => false, fun _ => false, fun _ => false⟩ "tmp_x" "/w"
        [] [["b", "a", "b"]] [] false).filter isMkdir = [Op.mkdir "tmp_x"]) ∧
    ((generate_operations ⟨fun _ => false, fun _ => false, fun _ => false⟩ "tmp_x" "/w"
        [] [["b", "a", "b"]] [] false).count (Op.rmdir "tmp_x") = 1) ∧
    ((generate_operations ⟨fun _ => false, fun _ => false, fun _ => false⟩ "tmp_x" "/w"
        [] [["b", "a", "b"]] [] false).getLast? = some (Op.rmdir "tmp_x")) ∧
    (∀ c0 c1 rest, (c0 :: c1 :: rest) ∈ [["b", "a", "b"]] →
      (∃ u v, generate_operations ⟨fun _ => false, fun _ => false, fun _ => false⟩ "tmp_x" "/w"
          [] [["b", "a", "b"]] [] false =
        u ++ ([Op.rename c0 (pyJoin "tmp_x" (basename c0))] ++
          (pairwise ((pyJoin "tmp_x" (basename c0) :: c1 :: rest).reverse)).map
            (fun q => Op.rename q.2 q.1)) ++ v) ∧
      ((pairwise ((pyJoin "tmp_x" (basename c0) :: c1 :: rest).reverse)).map
          (fun q => Op.rename q.2 q.1)).getLast? =
        some (Op.rename (pyJoin "tmp_x" (basename c0)) c1)) :=
  generate_operations_cycle_tmpdir ⟨fun _ => false, fun _ => false, fun _ => false⟩
    "tmp_x" "/w" [] [["b", "a", "b"]] false (by decide) (by decide) (by decide) (by decide)

theorem chainPairOps_extends (tmpN : String) (acc : List Op × String)
    (q : String × String) : ∃ t, (chainPairOps tmpN acc q).1 = acc.1 ++ t := by
  rw [chainPairOps]
  by_cases hsw : startsWithDir q.2 q.1
  · rw [if_pos hsw]
    refine ⟨(create_tmpdir tmpN acc.2).1 ++
      [Op.rename q.2 (pyJoin (create_tmpdir tmpN acc.2).2 (basename q.2)),
       Op.makedirs (dirname q.1),
       Op.rename (pyJoin (create_tmpdir tmpN acc.2).2 (basename q.2)) q.1], ?_⟩
    simp
  · rw [if_neg hsw]
    exact ⟨[Op.rename q.2 q.1], rfl⟩

theorem mem_remove_tmpdir {o : Op} {s : String} (h : o ∈ remove_tmpdir s) :
    o = Op.rmdir s := by
  rw [remove_tmpdir] at h
  split at h
  · simp at h
  · simpa using h

/-- C4: For every chain edge `(src, dst)` whose destination lies inside
its source, the planner emits, contiguously and in this order, a rename
of `src` to a fresh path inside the temporary staging directory, a
`makedirs` of the parent of `dst`, and a rename of the temporary path to
`dst`; and no direct `rename(src, dst)` appears anywhere in the plan. -/
theorem generate_operations_nested_move (fs : FSProbe) (tmpN cwd : String)
    (paths : List (List String)) (removals : List String) (rr : Bool)
    (p : List String) (src dst : String)
    (hp : p ∈ paths) (hq : (src, dst) ∈ pairwise p)
    (hin : startsWithDir src dst = true)
    (hT : tmpN ≠ "")
    (hfresh : ∀ p2 ∈ paths, ∀ x ∈ p2, startsWithDir tmpN x = false) :
    (∃ u v, generate_operations fs tmpN cwd paths [] removals rr =
      u ++ [Op.rename src (pyJoin tmpN (basename src)),
            Op.makedirs (dirname dst),
            Op.rename (pyJoin tmpN (basename src)) dst] ++ v) ∧
    Op.rename src dst ∉ generate_operations fs tmpN cwd paths [] removals rr := by
  have hq2 : (dst, src) ∈ pairwise p.reverse := by
    rw [mem_pairwise_reverse]
    exact hq
  have hsrcp : src ∈ p := (mem_of_mem_pairwise hq).1
  have hdstp : dst ∈ p := (mem_of_mem_pairwise hq).2
  have hinq : startsWithDir (dst, src).2 (dst, src).1 = true := hin
  have hstate : ∀ (a : List Op × String) (q : String × String),
      (a.2 = "" ∨ a.2 = tmpN) →
      ((chainPairOps tmpN a q).2 = "" ∨ (chainPairOps tmpN a q).2 = tmpN) :=
    fun a q h => (chainPairOps_shape tmpN hT a q h).2.1
  have hq0 : ∀ acc : List Op × String, (acc.2 = "" ∨ acc.2 = tmpN) →
      ∃ u v, (chainPairOps tmpN acc (dst, src)).1 =
        u ++ [Op.rename src (pyJoin tmpN (basename src)),
              Op.makedirs (dirname dst),
              Op.rename (pyJoin tmpN (basename src)) dst] ++ v := by
    intro acc hst
    rw [chainPairOps, if_pos hinq, create_tmpdir_snd hT hst]
    exact ⟨acc.1 ++ (create_tmpdir tmpN acc.2).1, [], by simp⟩
  have hinnerstate : ∀ (a : List Op × String) (p2 : List String),
      (a.2 = "" ∨ a.2 = tmpN) →
      (((pairwise p2.reverse).foldl (chainPairOps tmpN) a).2 = "" ∨
       ((pairwise p2.reverse).foldl (chainPairOps tmpN) a).2 = tmpN) :=
    fun a p2 h =>
      (foldl_shape tmpN (chainPairOps tmpN) (chainEmits tmpN)
        (fun a2 q h2 => chainPairOps_shape tmpN hT a2 q h2) (pairwise p2.reverse) a h).2.1
  have hpblock : ∀ acc : List Op × String, (acc.2 = "" ∨ acc.2 = tmpN) →
      ∃ u v, ((pairwise p.reverse).foldl (chainPairOps tmpN) acc).1 =
        u ++ [Op.rename src (pyJoin tmpN (basename src)),
              Op.makedirs (dirname dst),
              Op.rename (pyJoin tmpN (basename src)) dst] ++ v :=
    fun acc hst =>
      foldl_block tmpN (chainPairOps tmpN) hstate (chainPairOps_extends tmpN)
        (dst, src) _ hq0 (pairwise p.reverse) acc hst hq2
  have hblock : ∃ u v, (chainsOps tmpN paths
      ([Op.cd cwd] ++ removals.flatMap (path_remove_ops fs rr) ++
        (sortByLenAsc (listDiff (dstDirs paths) (srcDirs paths))).map Op.makedirs, "")).1 =
      u ++ [Op.rename src (pyJoin tmpN (basename src)),
            Op.makedirs (dirname dst),
            Op.rename (pyJoin tmpN (basename src)) dst] ++ v := by
    rw [chainsOps]
    exact foldl_block tmpN (fun a p2 => (pairwise p2.reverse).foldl (chainPairOps tmpN) a)
      hinnerstate
      (fun a p2 => foldl_extends (chainPairOps tmpN) (chainPairOps_extends tmpN)
        (pairwise p2.reverse) a)
      p _ (fun acc hst => hpblock acc hst) paths
      ([Op.cd cwd] ++ removals.flatMap (path_remove_ops fs rr) ++
        (sortByLenAsc (listDiff (dstDirs paths) (srcDirs paths))).map Op.makedirs, "")
      (Or.inl rfl) hp
  constructor
  · rw [generate_operations_decomp, List.foldl_nil]
    obtain ⟨u, v, huv⟩ := hblock
    rw [huv]
    refine ⟨u, v ++ (sortByLenDesc (listDiff (srcDirs paths) (dstDirs paths))).map Op.rmdir ++
      remove_tmpdir
        ((chainsOps tmpN paths
          ([Op.cd cwd] ++ removals.flatMap (path_remove_ops fs rr) ++
            (sortByLenAsc (listDiff (dstDirs paths) (srcDirs paths))).map Op.makedirs,
           "")).2), ?_⟩
    simp [List.append_assoc]
  · rw [generate_operations_decomp, List.foldl_nil]
    intro hmem
    rcases List.mem_append.mp hmem with h | h
    · rcases List.mem_append.mp h with h2 | h2
      · -- inside the chain section prefix
        have hAshape := chainsOps_shape tmpN hT paths
          ([Op.cd cwd] ++ removals.flatMap (path_remove_ops fs rr) ++
            (sortByLenAsc (listDiff (dstDirs paths) (srcDirs paths))).map Op.makedirs, "")
          (Or.inl rfl)
        obtain ⟨t, ht, hchar⟩ := hAshape.2.2
        rw [ht] at h2
        rcases List.mem_append.mp h2 with h3 | h3
        · rcases List.mem_append.mp h3 with h4 | h4
          · rcases List.mem_append.mp h4 with h5 | h5
            · simp at h5
            · obtain ⟨x, _, hx2⟩ := List.mem_flatMap.mp h5
              have hnil := filter_isRename_path_remove_ops fs rr x
              rw [List.filter_eq_nil_iff] at hnil
              exact (hnil _ hx2) rfl
          · obtain ⟨a, _, ha2⟩ := List.mem_map.mp h4
            exact Op.noConfusion ha2
        · rcases hchar _ h3 with h4 | ⟨p2, hp2, q, hqp2, hch⟩
          · exact Op.noConfusion h4
          · rcases hch with ⟨hsw, h5 | h5 | h5⟩ | ⟨hswf, h5⟩
            · injection h5 with e1 e2
              have : startsWithDir tmpN dst = true := by
                rw [e2]
                exact startsWithDir_pyJoin tmpN (basename q.2) hT
              rw [hfresh p hp dst hdstp] at this
              exact Bool.noConfusion this
            · exact Op.noConfusion h5
            · injection h5 with e1 e2
              have : startsWithDir tmpN src = true := by
                rw [e1]
                exact startsWithDir_pyJoin tmpN (basename q.2) hT
              rw [hfresh p hp src hsrcp] at this
              exact Bool.noConfusion this
            · injection h5 with e1 e2
              rw [← e1, ← e2, hin] at hswf
              exact Bool.noConfusion hswf
      · obtain ⟨a, _, ha2⟩ := List.mem_map.mp h2
        exact Op.noConfusion ha2
    · exact Op.noConfusion (mem_remove_tmpdir h)

/-- Witness for `generate_operations_nested_move` at the nested move
`x -> x/new_x`. -/
theorem generate_operations_nested_move_witness :
    (∃ u v, generate_operations ⟨fun _ => false, fun _ => false, fun _ => false⟩
        "tmp_x" "/w" [["x", "x/new_x"]] [] [] false =
      u ++ [Op.rename "x" (pyJoin "tmp_x" (basename "x")),
            Op.makedirs (dirname "x/new_x"),
            Op.rename (pyJoin "tmp_x" (basename "x")) "x/new_x"] ++ v) ∧
    Op.rename "x" "x/new_x" ∉
      generate_operations ⟨fun _ => false, fun _ => false, fun _ => false⟩
        "tmp_x" "/w" [["x", "x/new_x"]] [] [] false :=
  generate_operations_nested_move ⟨fun _ => false, fun _ => false, fun _ => false⟩
    "tmp_x" "/w" [["x", "x/new_x"]] [] false ["x", "x/new_x"] "x" "x/new_x"
    (by decide) (by decide) (by decide) (by decide) (by decide)

/-! ### Execution model (dir_edit.py lines 102-108, 377-391)

The filesystem is a flat map from path to object; a path names a whole
object (for a directory, its subtree).  `os.*` primitives are modelled
at this granularity; error conditions carry the POSIX `strerror` texts. -/

inductive FsObj where
  | file (id : Nat)
  | symlink (target : String)
  | dirO
deriving DecidableEq

def FState : Type := String → Option FsObj

def fsUpdate (fs : FState) (p : String) (v : Option FsObj) : FState :=
  fun q => if q = p then v else fs q

/-- Model of `os.path.lexists`: the path has an entry, without following a final
symlink component — a dangling symlink still counts as existing. -/
def lexists (fs : FState) (p : String) : Bool := (fs p).isSome

structure OSErr where
  strerror : String
deriving DecidableEq

def noSuchFile : OSErr := ⟨"No such file or directory"⟩
def fileExists : OSErr := ⟨"File exists"⟩
def isADir : OSErr := ⟨"Is a directory"⟩
def notADir : OSErr := ⟨"Not a directory"⟩

/-- Model of `os.rename` at whole-object granularity. -/
def os_rename (fs : FState) (src dst : String) : Except OSErr FState :=
  match fs src with
  | none => .error noSuchFile
  | some o => .ok (fsUpdate (fsUpdate fs src none) dst (some o))

/-- Model of `rename` (dir_edit.py line 102): rename src path to dst, do not
overwrite an existing file.  Returns the new state and the warnings
emitted. -/
def rename (fs : FState) (src dst : String) : Except OSErr (FState × List String) :=
  if lexists fs dst then .ok (fs, ["path " ++ dst ++ " already exists, skip"])
  else (os_rename fs src dst).map (fun fs2 => (fs2, []))

/-- Model of `makedirs_exist_ok` (dir_edit.py line 68). -/
def makedirs_exist_ok (fs : FState) (p : String) : Except OSErr FState :=
  match fs p with
  | some FsObj.dirO => .ok fs
  | some _ => .error fileExists
  | none => .ok (fsUpdate fs p (some FsObj.dirO))

def os_mkdir (fs : FState) (p : String) : Except OSErr FState :=
  if (fs p).isSome then .error fileExists
  else .ok (fsUpdate fs p (some FsObj.dirO))

def os_rmdir (fs : FState) (p : String) : Except OSErr FState :=
  match fs p with
  | none => .error noSuchFile
  | some FsObj.dirO => .ok (fsUpdate fs p none)
  | some _ => .error notADir

def os_remove (fs : FState) (p : String) : Except OSErr FState :=
  match fs p with
  | none => .error noSuchFile
  | some FsObj.dirO => .error isADir
  | some _ => .ok (fsUpdate fs p none)

def rmtree (fs : FState) (p : String) : Except OSErr FState :=
  match fs p with
  | none => .error noSuchFile
  | some FsObj.dirO => .ok (fsUpdate fs p none)
  | some _ => .error notADir

/-- Does the operation carry a callable (`fun is not None`)?  Only the
`cd` logging marker has `None`. -/
def hasFun : Op → Bool
  | Op.cd _ => false
  | _ => true

/-- Model of `fun.__name__` of the callable of the operation. -/
def funName : Op → String
  | Op.cd _ => ""
  | Op.rename _ _ => "rename"
  | Op.makedirs _ => "makedirs_exist_ok"
  | Op.mkdir _ => "mkdir"
  | Op.rmdir _ => "rmdir"
  | Op.remove _ => "remove"
  | Op.rmtree _ => "rmtree"

def opArgs : Op → List String
  | Op.cd p => [p]
  | Op.rename a b => [a, b]
  | Op.makedirs p => [p]
  | Op.mkdir p => [p]
  | Op.rmdir p => [p]
  | Op.remove p => [p]
  | Op.rmtree p => [p]

/-- Python `repr` of a path string (escaping of special characters
elided: the arguments here are plain paths). -/
def pyRepr (s : String) : String :=
  String.singleton (Char.ofNat 39) ++ s ++ String.singleton (Char.ofNat 39)

/-- Model of the call rendering (dir_edit.py line 390): the function
name followed by the parenthesized comma-separated `repr`s of the
arguments. -/
def fun_call (op : Op) : String :=
  funName op ++ "(" ++ String.intercalate ", " ((opArgs op).map pyRepr) ++ ")"

/-- The effect `fun(*fargs)` of one operation. -/
def applyEffect (fs : FState) : Op → Except OSErr (FState × List String)
  | Op.cd _ => .ok (fs, [])
  | Op.rename s d => rename fs s d
  | Op.makedirs p => (makedirs_exist_ok fs p).map (fun f => (f, []))
  | Op.mkdir p => (os_mkdir fs p).map (fun f => (f, []))
  | Op.rmdir p => (os_rmdir fs p).map (fun f => (f, []))
  | Op.remove p => (os_remove fs p).map (fun f => (f, []))
  | Op.rmtree p => (rmtree fs p).map (fun f => (f, []))

/-- Model of `execute_operations` (dir_edit.py lines 377-391): run the plan left
to right; on the first OS error raise an `Error` carrying the rendered
call, a colon and `exc.strerror`, then stop.  The returned state is the filesystem as left
behind (already-applied operations are not rolled back); the middle
component collects warnings. -/
def execute_operations (dryRun : Bool) (fs : FState) :
    List Op → FState × List String × Option String
  | [] => (fs, [], none)
  | op :: rest =>
    if dryRun || !hasFun op then execute_operations dryRun fs rest
    else
      match applyEffect fs op with
      | .ok (fs2, ws) =>
        match execute_operations dryRun fs2 rest with
        | (fs3, ws2, err) => (fs3, ws ++ ws2, err)
      | .error e => (fs, [], some (fun_call op ++ ": " ++ e.strerror))

/-- C5: The rename primitive behind every emitted rename operation first
checks the destination with `lexists` (which does not follow a final
symlink component: a dangling symlink still counts); if the destination
exists the rename is skipped with a non-fatal warning and the filesystem
state is returned unchanged — an existing destination is never
overwritten. -/
theorem rename_non_clobber (fs : FState) (src dst : String)
    (h : lexists fs dst = true) :
    applyEffect fs (Op.rename src dst) =
      .ok (fs, ["path " ++ dst ++ " already exists, skip"]) ∧
    (∀ t, lexists (fsUpdate fs dst (some (FsObj.symlink t))) dst = true) := by
  constructor
  · show rename fs src dst = _
    rw [rename, if_pos h]
  · intro t
    simp [lexists, fsUpdate]

/-- Witness for `rename_non_clobber`: destination `b` exists. -/
theorem rename_non_clobber_witness :
    applyEffect (fun p => if p = "b" then some (FsObj.file 0) else none)
        (Op.rename "a" "b") =
      .ok ((fun p => if p = "b" then some (FsObj.file 0) else none),
        ["path " ++ "b" ++ " already exists, skip"]) ∧
    (∀ t, lexists (fsUpdate (fun p => if p = "b" then some (FsObj.file 0) else none)
        "b" (some (FsObj.symlink t))) "b" = true) :=
  rename_non_clobber (fun p => if p = "b" then some (FsObj.file 0) else none)
    "a" "b" (by decide)

/-- C7: During non-dry-run execution, the first operation whose effect
fails raises an error naming the failing call (function name and
arguments) and the OS error text; no subsequent operation is invoked
(the result does not depend on `post`), and the effects of the
already-applied prefix are retained (the returned state is exactly the
state after `pre`). -/
theorem execute_operations_nil (d : Bool) (fs : FState) :
    execute_operations d fs [] = (fs, [], none) := rfl

theorem execute_operations_cons (d : Bool) (fs : FState) (op : Op) (rest : List Op) :
    execute_operations d fs (op :: rest) =
      (if d || !hasFun op then execute_operations d fs rest
       else
        match applyEffect fs op with
        | .ok (fs2, ws) =>
          match execute_operations d fs2 rest with
          | (fs3, ws2, err) => (fs3, ws ++ ws2, err)
        | .error e => (fs, [], some (fun_call op ++ ": " ++ e.strerror))) := rfl

theorem execute_operations_abort (fs : FState) (pre post : List Op) (op : Op) (e : OSErr)
    (hpre : (execute_operations false fs pre).2.2 = none)
    (hop : hasFun op = true)
    (herr : applyEffect (execute_operations false fs pre).1 op = .error e) :
    execute_operations false fs (pre ++ op :: post) =
      ((execute_operations false fs pre).1,
       (execute_operations false fs pre).2.1,
       some (fun_call op ++ ": " ++ e.strerror)) := by
  induction pre generalizing fs with
  | nil =>
    rw [List.nil_append, execute_operations_cons]
    have hcond : ¬ ((false || !hasFun op) = true) := by
      rw [hop]
      simp
    rw [if_neg hcond]
    have herr2 : applyEffect fs op = .error e := herr
    rw [herr2]
    rfl
  | cons o pre2 ih =>
    rw [List.cons_append, execute_operations_cons, execute_operations_cons]
    rw [execute_operations_cons] at hpre herr
    by_cases hskip : (false || !hasFun o) = true
    · rw [if_pos hskip] at hpre herr
      rw [if_pos hskip, if_pos hskip]
      exact ih fs hpre herr
    · rw [if_neg hskip] at hpre herr
      rw [if_neg hskip, if_neg hskip]
      cases happ : applyEffect fs o with
      | ok r =>
        obtain ⟨fs2, ws⟩ := r
        rw [happ] at hpre herr
        simp only at hpre herr ⊢
        rcases hrec : execute_operations false fs2 pre2 with ⟨fs3, ws2, err⟩
        simp only
        have hih := ih fs2 hpre herr
        rw [hrec] at hih
        rw [hih]
      | error e2 =>
        rw [happ] at hpre
        simp at hpre

/-- Witness for `execute_operations_abort`: after `mv a b` succeeds, the
removal of a missing path aborts the remaining plan. -/
theorem execute_operations_abort_witness :
    execute_operations false (fun p => if p = "a" then some (FsObj.file 0) else none)
        ([Op.rename "a" "b"] ++ Op.remove "zz" :: [Op.rename "b" "c"]) =
      ((execute_operations false (fun p => if p = "a" then some (FsObj.file 0) else none)
          [Op.rename "a" "b"]).1,
       (execute_operations false (fun p => if p = "a" then some (FsObj.file 0) else none)
          [Op.rename "a" "b"]).2.1,
       some (fun_call (Op.remove "zz") ++ ": " ++ noSuchFile.strerror)) :=
  execute_operations_abort (fun p => if p = "a" then some (FsObj.file 0) else none)
    [Op.rename "a" "b"] [Op.rename "b" "c"] (Op.remove "zz") noSuchFile
    rfl rfl rfl

/-! ### Path normalization and mapping construction
(dir_edit.py lines 215-247, 301-315) -/

/-- Model of `os.pardir` on POSIX. -/
def pardir : String := ".."

/-- One step of `os.path.normpath` component processing for relative
POSIX paths: drop empty and `.` components, let `..` cancel a previous
non-`..` component and otherwise accumulate. -/
def normpathStep (acc : List String) (c : String) : List String :=
  if c = "" ∨ c = "." then acc
  else if c = ".." then
    match acc.getLast? with
    | some l => if l = ".." then acc ++ [c] else acc.dropLast
    | none => [".."]
  else acc ++ [c]

/-- Model of `os.path.normpath` for relative POSIX paths (the only inputs at the
`make_relpath` call sites; absolute paths would involve the process
working directory, outside this model). -/
def pyNormpath (p : String) : String :=
  let comps := (splitComps p).foldl normpathStep []
  if comps = [] then "." else joinComps comps

/-- Model of `make_relpath` (dir_edit.py line 215): return the relative path,
raise `Error` if it leads outside, which the code tests as
`relpath.startswith(os.pardir + os.sep)`.  For a relative input,
`os.path.relpath(path)` equals `os.path.normpath(path)`. -/
def make_relpath (path : String) : Except String String :=
  if (pardir ++ pySep).data.isPrefixOf (pyNormpath path).data then
    .error ("error, path " ++ path ++ " leads outside given directory")
  else .ok (pyNormpath path)

/-- The loop state of `generate_mapping` (dir_edit.py lines 227-230):
the four dicts/lists in insertion order; `src_seen`/`dst_seen` map the
normalized path to the original spelling. -/
structure GMState where
  renames : List (String × String)
  removals : List String
  src_seen : List (String × String)
  dst_seen : List (String × String)
deriving Repr, DecidableEq

/-- One iteration of the `generate_mapping` loop body
(dir_edit.py lines 231-246) on the pair `(srcfile, dstfile)`. -/
def gmStep (st : GMState) (e : String × String) : Except String GMState :=
  match make_relpath e.1 with
  | .error msg => .error msg
  | .ok src =>
    match alookup src st.src_seen with
    | some prev => .error ("error, duplicate input entries " ++ e.1 ++ " and " ++ prev)
    | none =>
      -- empty lines indicate removal
      if e.2 = "" then
        .ok { st with src_seen := st.src_seen ++ [(src, e.1)],
                      removals := st.removals ++ [src] }
      else
        match make_relpath e.2 with
        | .error msg => .error msg
        | .ok dst =>
          match alookup dst st.dst_seen with
          | some prev =>
            .error ("error, duplicate target entries " ++ e.2 ++ " and " ++ prev)
          | none =>
            -- no self loops (need no renaming!)
            if src ≠ dst then
              .ok { st with src_seen := st.src_seen ++ [(src, e.1)],
                            dst_seen := st.dst_seen ++ [(dst, e.2)],
                            renames := st.renames ++ [(src, dst)] }
            else
              .ok { st with src_seen := st.src_seen ++ [(src, e.1)],
                            dst_seen := st.dst_seen ++ [(dst, e.2)] }

def gmRun : List (String × String) → GMState → Except String GMState
  | [], st => .ok st
  | e :: rest, st =>
    match gmStep st e with
    | .error msg => .error msg
    | .ok st2 => gmRun rest st2

/-- Model of `generate_mapping` (dir_edit.py line 225). -/
def generate_mapping (input_file_list output_file_list : List String) :
    Except String (List (String × String) × List String) :=
  match gmRun (List.zip input_file_list output_file_list) ⟨[], [], [], []⟩ with
  | .error msg => .error msg
  | .ok st => .ok (st.renames, st.removals)

/-- Model of `get_input_file_list` (dir_edit.py lines 284-307), the validation on
the obtained list (reading files, directories or the command line, and
the `lstat` existence check, are the I/O around it). -/
def get_input_file_list (file_list : List String) (mangle_newlines : Bool) :
    Except String (List String) :=
  if file_list = [] then .error "no valid path given for renaming"
  else if ¬ mangle_newlines ∧
      file_list.any (fun f => f.data.contains (Char.ofNat 10) || f.data.contains (Char.ofNat 13)) then
    .error "file names with newlines are not supported, try -m!"
  else .ok file_list

/-- Model of `get_file_lists` (dir_edit.py line 309): obtain both lists, then
compare lengths.  The output list is read only after the input list
passed its validation. -/
def get_file_lists (input_file_list output_file_list : List String) (mangle : Bool) :
    Except String (List String × List String) :=
  match get_input_file_list input_file_list mangle with
  | .error msg => .error msg
  | .ok l =>
    if l.length ≠ output_file_list.length then
      .error "new file list has different length than old"
    else .ok (l, output_file_list)

/-- Model of `dir_edit` (dir_edit.py line 393): the pipeline list validation →
mapping → decomposition → planning → execution.  A validation error is
returned with the filesystem state untouched. -/
def dir_edit (fs : FState) (fsp : FSProbe) (nc : String → String) (tmpN cwd : String)
    (input_file_list output_file_list : List String)
    (mangle removeRecursive dryRun : Bool) :
    FState × List String × Option String :=
  match get_file_lists input_file_list output_file_list mangle with
  | .error msg => (fs, [], some msg)
  | .ok (i, o) =>
    match generate_mapping i o with
    | .error msg => (fs, [], some msg)
    | .ok (renames, removals) =>
      execute_operations dryRun fs
        (generate_operations fsp tmpN cwd
          (decompose_mapping nc renames).1 (decompose_mapping nc renames).2
          removals removeRecursive)

/-- C8 (code evaluated at the failing input): `make_relpath ".."`
returns `".."` instead of raising the outside-directory error, although
`..` resolves outside the working directory root, and mapping
construction happily maps the parent directory. -/
theorem make_relpath_parent_escape :
    make_relpath ".." = .ok ".." ∧
    generate_mapping [".."] ["x"] = .ok ([("..", "x")], []) := by
  constructor
  · rfl
  · rfl

theorem alookup_append_some {k v : String} {l1 l2 : List (String × String)}
    (h : alookup k l1 = some v) : alookup k (l1 ++ l2) = some v := by
  induction l1 with
  | nil => simp [alookup] at h
  | cons p rest ih =>
    obtain ⟨a, b⟩ := p
    by_cases hak : a = k
    · simp only [alookup, hak, if_true] at h ⊢
      exact h
    · simp only [alookup, hak, if_false] at h ⊢
      exact ih h

theorem alookup_append_none {k : String} {l1 l2 : List (String × String)}
    (h : alookup k l1 = none) : alookup k (l1 ++ l2) = alookup k l2 := by
  induction l1 with
  | nil => rfl
  | cons p rest ih =>
    obtain ⟨a, b⟩ := p
    by_cases hak : a = k
    · simp [alookup, hak] at h
    · simp only [alookup, hak, if_false] at h ⊢
      exact ih h

theorem gmRun_nil (st : GMState) : gmRun [] st = .ok st := rfl

theorem gmRun_cons (e : String × String) (rest : List (String × String)) (st : GMState) :
    gmRun (e :: rest) st =
      (match gmStep st e with
       | .error msg => .error msg
       | .ok st2 => gmRun rest st2) := rfl

theorem gmRun_append (l1 l2 : List (String × String)) (st : GMState) :
    gmRun (l1 ++ l2) st =
      (match gmRun l1 st with
       | .error msg => .error msg
       | .ok st2 => gmRun l2 st2) := by
  induction l1 generalizing st with
  | nil => rfl
  | cons e rest ih =>
    rw [List.cons_append, gmRun, gmRun]
    cases gmStep st e with
    | error msg => rfl
    | ok st2 => exact ih st2

/-- Lemma: `gmStep` only appends to the seen-dictionaries. -/
theorem gmStep_mono {st : GMState} {e : String × String} {st2 : GMState}
    (h : gmStep st e = .ok st2) :
    (∃ t, st2.src_seen = st.src_seen ++ t) ∧ (∃ t, st2.dst_seen = st.dst_seen ++ t) := by
  rw [gmStep] at h
  split at h
  · simp at h
  · split at h
    · simp at h
    · split at h
      · injection h with h2
        rw [← h2]
        exact ⟨⟨_, rfl⟩, ⟨[], (List.append_nil _).symm⟩⟩
      · split at h
        · simp at h
        · split at h
          · simp at h
          · split at h
            · injection h with h2
              rw [← h2]
              exact ⟨⟨_, rfl⟩, ⟨_, rfl⟩⟩
            · injection h with h2
              rw [← h2]
              exact ⟨⟨_, rfl⟩, ⟨_, rfl⟩⟩

/-- Lemma: `gmRun` only appends to the seen-dictionaries. -/
theorem gmRun_mono {l : List (String × String)} {st st2 : GMState}
    (h : gmRun l st = .ok st2) :
    (∃ t, st2.src_seen = st.src_seen ++ t) ∧ (∃ t, st2.dst_seen = st.dst_seen ++ t) := by
  induction l generalizing st with
  | nil =>
    rw [gmRun] at h
    injection h with h2
    rw [h2]
    exact ⟨⟨[], by simp⟩, ⟨[], by simp⟩⟩
  | cons e rest ih =>
    rw [gmRun] at h
    cases hstep : gmStep st e with
    | error msg =>
      rw [hstep] at h
      simp at h
    | ok st1 =>
      rw [hstep] at h
      obtain ⟨⟨t1, ht1⟩, ⟨t2, ht2⟩⟩ := gmStep_mono hstep
      obtain ⟨⟨t3, ht3⟩, ⟨t4, ht4⟩⟩ := ih h
      exact ⟨⟨t1 ++ t3, by rw [ht3, ht1, List.append_assoc]⟩,
             ⟨t2 ++ t4, by rw [ht4, ht2, List.append_assoc]⟩⟩

theorem gmRun_src_seen_persist {l : List (String × String)} {st st2 : GMState}
    {k v : String} (h : gmRun l st = .ok st2)
    (hk : alookup k st.src_seen = some v) : alookup k st2.src_seen = some v := by
  obtain ⟨⟨t, ht⟩, _⟩ := gmRun_mono h
  rw [ht]
  exact alookup_append_some hk

theorem gmRun_dst_seen_persist {l : List (String × String)} {st st2 : GMState}
    {k v : String} (h : gmRun l st = .ok st2)
    (hk : alookup k st.dst_seen = some v) : alookup k st2.dst_seen = some v := by
  obtain ⟨_, ⟨t, ht⟩⟩ := gmRun_mono h
  rw [ht]
  exact alookup_append_some hk

/-- The `gmStep` outcome on a duplicate non-blank destination with a
fresh source. -/
theorem gmStep_duplicate_dst {st : GMState} {s2 d2 src2 dst2 d1 : String}
    (hsrc : make_relpath s2 = .ok src2)
    (hsfresh : alookup src2 st.src_seen = none)
    (hd2 : d2 ≠ "")
    (hdst : make_relpath d2 = .ok dst2)
    (hseen : alookup dst2 st.dst_seen = some d1) :
    gmStep st (s2, d2) =
      .error ("error, duplicate target entries " ++ d2 ++ " and " ++ d1) := by
  rw [gmStep]
  simp only [hsrc, hsfresh, hdst, if_neg hd2, hseen]

/-- C6 (amended): if the entries scanned before the offending pair
produce no validation error and reach state `st`, and the next entry has
a fresh source and a non-blank destination whose normalized form was
already claimed, then mapping construction fails with the
duplicate-destination error naming both competing entries, and the
pipeline performs no filesystem mutation.  (The amendment: an earlier
duplicate-source or outside-directory error on a preceding entry takes
precedence; the original claim quantified over all lists.) -/
theorem generate_mapping_duplicate_dst (fs : FState) (fsp : FSProbe)
    (nc : String → String) (tmpN cwd : String)
    (inL outL : List String) (mangle rr dry : Bool)
    (pre rest : List (String × String)) (s2 d2 src2 dst2 d1 : String) (st : GMState)
    (hzip : List.zip inL outL = pre ++ (s2, d2) :: rest)
    (hpre : gmRun pre ⟨[], [], [], []⟩ = .ok st)
    (hsrc : make_relpath s2 = .ok src2)
    (hsfresh : alookup src2 st.src_seen = none)
    (hd2 : d2 ≠ "")
    (hdst : make_relpath d2 = .ok dst2)
    (hseen : alookup dst2 st.dst_seen = some d1)
    (hok : get_input_file_list inL mangle = .ok inL)
    (hlen : inL.length = outL.length) :
    generate_mapping inL outL =
      .error ("error, duplicate target entries " ++ d2 ++ " and " ++ d1) ∧
    dir_edit fs fsp nc tmpN cwd inL outL mangle rr dry =
      (fs, [], some ("error, duplicate target entries " ++ d2 ++ " and " ++ d1)) := by
  have hgm : generate_mapping inL outL =
      .error ("error, duplicate target entries " ++ d2 ++ " and " ++ d1) := by
    rw [generate_mapping, hzip, gmRun_append, hpre]
    dsimp only
    rw [gmRun_cons, gmStep_duplicate_dst hsrc hsfresh hd2 hdst hseen]
  refine ⟨hgm, ?_⟩
  rw [dir_edit, get_file_lists, hok]
  dsimp only
  rw [if_neg (show ¬ (inL.length ≠ outL.length) from fun h => h hlen)]
  dsimp only
  rw [hgm]

/-- Witness for `generate_mapping_duplicate_dst`: sources `a`, `b` both
mapped to destination `c`. -/
theorem generate_mapping_duplicate_dst_witness :
    generate_mapping ["a", "b"] ["c", "c"] =
      .error ("error, duplicate target entries " ++ "c" ++ " and " ++ "c") ∧
    dir_edit (fun _ => none) ⟨fun _ => false, fun _ => false, fun _ => false⟩
        (fun s => s) "tmp_x" "/w" ["a", "b"] ["c", "c"] false false false =
      ((fun _ => none), [],
        some ("error, duplicate target entries " ++ "c" ++ " and " ++ "c")) :=
  generate_mapping_duplicate_dst (fun _ => none)
    ⟨fun _ => false, fun _ => false, fun _ => false⟩ (fun s => s) "tmp_x" "/w"
    ["a", "b"] ["c", "c"] false false false
    [("a", "c")] [] "b" "c" "b" "c" "c" ⟨[("a", "c")], [], [("a", "a")], [("c", "c")]⟩
    rfl rfl rfl rfl (by decide) rfl rfl rfl rfl

/-- C6 counterexample to the claim as stated: entries 0 and 2 are two
distinct sources (`a`, `b`) claiming the same non-blank destination `d`,
yet mapping construction fails with the duplicate-source error for the
intervening duplicate input entry, not with the duplicate-destination
error. -/
theorem generate_mapping_duplicate_dst_cex :
    generate_mapping ["a", "a", "b"] ["d", "e", "d"] =
      .error "error, duplicate input entries a and a" ∧
    generate_mapping ["a", "a", "b"] ["d", "e", "d"] ≠
      .error ("error, duplicate target entries " ++ "d" ++ " and " ++ "d") := by
  constructor
  · rfl
  · intro h
    rw [show generate_mapping ["a", "a", "b"] ["d", "e", "d"] =
      .error "error, duplicate input entries a and a" from rfl] at h
    injection h with h2
    exact absurd h2 (by decide)

theorem gmStep_duplicate_src {st : GMState} {s3 d3 k prev : String}
    (hs : make_relpath s3 = .ok k) (hseen : alookup k st.src_seen = some prev) :
    gmStep st (s3, d3) =
      .error ("error, duplicate input entries " ++ s3 ++ " and " ++ prev) := by
  rw [gmStep]
  simp only [hs, hseen]

/-- C10: An entry whose before and after paths normalize to the same key
is dropped from the mapping as a no-op (`renames` and `removals` are
unchanged), but its source and destination are still recorded in the
seen-dictionaries: a later entry claiming the same destination fails
with the duplicate-destination error, and a reappearance of the dropped
dropped source fails with the duplicate-source error. -/
theorem gmStep_selfmap_drop (st : GMState) (s d k : String)
    (hs : make_relpath s = .ok k) (hd : make_relpath d = .ok k) (hdne : d ≠ "")
    (hsfresh : alookup k st.src_seen = none) (hdfresh : alookup k st.dst_seen = none) :
    (gmStep st (s, d) = .ok { st with src_seen := st.src_seen ++ [(k, s)],
                                      dst_seen := st.dst_seen ++ [(k, d)] }) ∧
    (∀ (mid : List (String × String)) (st2 : GMState) (s2 d2 k2 : String),
      gmRun mid { st with src_seen := st.src_seen ++ [(k, s)],
                          dst_seen := st.dst_seen ++ [(k, d)] } = .ok st2 →
      make_relpath s2 = .ok k2 → alookup k2 st2.src_seen = none → d2 ≠ "" →
      make_relpath d2 = .ok k →
      gmStep st2 (s2, d2) =
        .error ("error, duplicate target entries " ++ d2 ++ " and " ++ d)) ∧
    (∀ (mid : List (String × String)) (st2 : GMState) (s3 d3 : String),
      gmRun mid { st with src_seen := st.src_seen ++ [(k, s)],
                          dst_seen := st.dst_seen ++ [(k, d)] } = .ok st2 →
      make_relpath s3 = .ok k →
      gmStep st2 (s3, d3) =
        .error ("error, duplicate input entries " ++ s3 ++ " and " ++ s)) := by
  have hdseen0 : alookup k (st.dst_seen ++ [(k, d)]) = some d := by
    rw [alookup_append_none hdfresh]
    simp [alookup]
  have hsseen0 : alookup k (st.src_seen ++ [(k, s)]) = some s := by
    rw [alookup_append_none hsfresh]
    simp [alookup]
  refine ⟨?_, ?_, ?_⟩
  · rw [gmStep]
    simp only [hs, hsfresh, hd, hdfresh, if_neg hdne]
    simp
  · intro mid st2 s2 d2 k2 hrun hs2 hfresh2 hd2ne hd2
    have hdseen : alookup k st2.dst_seen = some d :=
      gmRun_dst_seen_persist hrun hdseen0
    exact gmStep_duplicate_dst hs2 hfresh2 hd2ne hd2 hdseen
  · intro mid st2 s3 d3 hrun hs3
    have hsseen : alookup k st2.src_seen = some s :=
      gmRun_src_seen_persist hrun hsseen0
    exact gmStep_duplicate_src hs3 hsseen

/-- Witness for `gmStep_selfmap_drop`: the no-op entry `a -> a` in the
empty state; the later conflicting entries are still universally
quantified inside the conclusion. -/
theorem gmStep_selfmap_drop_witness :
    (gmStep ⟨[], [], [], []⟩ ("a", "a") =
      .ok { renames := [], removals := [], src_seen := [] ++ [("a", "a")],
            dst_seen := [] ++ [("a", "a")] }) ∧
    (∀ (mid : List (String × String)) (st2 : GMState) (s2 d2 k2 : String),
      gmRun mid { renames := [], removals := [], src_seen := [] ++ [("a", "a")],
                  dst_seen := [] ++ [("a", "a")] } = .ok st2 →
      make_relpath s2 = .ok k2 → alookup k2 st2.src_seen = none → d2 ≠ "" →
      make_relpath d2 = .ok "a" →
      gmStep st2 (s2, d2) =
        .error ("error, duplicate target entries " ++ d2 ++ " and " ++ "a")) ∧
    (∀ (mid : List (String × String)) (st2 : GMState) (s3 d3 : String),
      gmRun mid { renames := [], removals := [], src_seen := [] ++ [("a", "a")],
                  dst_seen := [] ++ [("a", "a")] } = .ok st2 →
      make_relpath s3 = .ok "a" →
      gmStep st2 (s3, d3) =
        .error ("error, duplicate input entries " ++ s3 ++ " and " ++ "a")) :=
  gmStep_selfmap_drop ⟨[], [], [], []⟩ "a" "a" "a" rfl rfl (by decide) rfl rfl

/-- C9 (amended): once the input list passes its own validation
(non-empty; no newline check rejection), unequal list lengths fail with
the length-mismatch error before any duplicate or containment validation
— the pipeline returns the length error with the filesystem untouched
whatever the list contents, since `generate_mapping` is never reached.
(The amendment: the input-list emptiness and newline checks run before
the length comparison, so they can pre-empt it; the original claim
placed the length check before the newline check as well.) -/
theorem get_file_lists_length_mismatch (fs : FState) (fsp : FSProbe)
    (nc : String → String) (tmpN cwd : String)
    (inL outL : List String) (mangle rr dry : Bool)
    (hok : get_input_file_list inL mangle = .ok inL)
    (hlen : inL.length ≠ outL.length) :
    get_file_lists inL outL mangle =
      .error "new file list has different length than old" ∧
    dir_edit fs fsp nc tmpN cwd inL outL mangle rr dry =
      (fs, [], some "new file list has different length than old") := by
  have hgf : get_file_lists inL outL mangle =
      .error "new file list has different length than old" := by
    rw [get_file_lists, hok]
    dsimp only
    rw [if_pos hlen]
  refine ⟨hgf, ?_⟩
  rw [dir_edit, hgf]

/-- Witness for `get_file_lists_length_mismatch`: the output list has a
duplicate destination, yet the reported error is the length mismatch. -/
theorem get_file_lists_length_mismatch_witness :
    get_file_lists ["a"] ["x", "x"] false =
      .error "new file list has different length than old" ∧
    dir_edit (fun _ => none) ⟨fun _ => false, fun _ => false, fun _ => false⟩
        (fun s => s) "tmp_x" "/w" ["a"] ["x", "x"] false false false =
      ((fun _ => none), [], some "new file list has different length than old") :=
  get_file_lists_length_mismatch (fun _ => none)
    ⟨fun _ => false, fun _ => false, fun _ => false⟩ (fun s => s) "tmp_x" "/w"
    ["a"] ["x", "x"] false false false rfl (by decide)

/-- C9 counterexample to the claim as stated: the input list contains a
name with a newline and has a different length than the output list; the
failure is the newline rejection, not the length mismatch, so the
length check does not run before every other validation. -/
theorem get_file_lists_newline_before_length_cex :
    get_file_lists [String.mk [Char.ofNat 97, Char.ofNat 10, Char.ofNat 98]]
        ["x", "y"] false =
      .error "file names with newlines are not supported, try -m!" ∧
    get_file_lists [String.mk [Char.ofNat 97, Char.ofNat 10, Char.ofNat 98]]
        ["x", "y"] false ≠
      .error "new file list has different length than old" := by
  constructor
  · rfl
  · intro h
    rw [show get_file_lists [String.mk [Char.ofNat 97, Char.ofNat 10, Char.ofNat 98]]
        ["x", "y"] false =
      .error "file names with newlines are not supported, try -m!" from rfl] at h
    injection h with h2
    exact absurd h2 (by decide)

end DirEdit
